import Mathlib

/-!
# Verification of the PDOK QGIS processing plugin's core decoding logic

This file is a shallow embedding of the decoding logic of the
`qgis-processing-plugin` repository:

* the multipart MIME response parser of
  `pdok_services/processing_provider/processing_ahn3.py`
  (`get_boundary`, `split_on_find`, `header_parser`, `parse_response`),
* the coverage extraction and pixel-sampling parts of
  `PDOKWCSTool.get_ahn_val` and the no-data sentinel translation of
  `PDOKWCSTool.processAlgorithm`,
* the exactly-one lookup contract of
  `pdok_services/locatieserver/locatieserver.py` (`lookup_object`).

Python byte strings are modelled as `List Nat` (one `Nat` per byte).
Python floats are modelled as exact rationals `ℚ`; `math.floor` and the
float floor-division `//` become `Int.floor`.  Code that can raise a
Python exception is modelled with `Except PyError`.  The GDAL raster
library is treated as an oracle (`Bytes → Raster`): the raster bytes are
never inspected by the code under verification, only the GeoTransform and
the 1x1 `ReadRaster` window (`Raster.band`) are used.
-/

/-- A Python `bytes` object: a list of byte values. -/
abbrev Bytes := List Nat

/-- The Python exceptions that the modelled code can raise. -/
inductive PyError where
  /-- `TypeError`, raised by `b"".join((b"\r\n", sep))` when `sep` is the
  `str` `""` that `get_boundary` returns on a failed match. -/
  | typeError
  /-- `KeyError`, raised by `part["headers"][b"content-type"]` when the
  case-insensitive dict has no `content-type` entry. -/
  | keyError
  /-- `UnboundLocalError` (a `NameError`), raised when the local variable
  `coverage` is read at `gdal.FileFromMemBuffer` without ever having been
  assigned in the loop over the multipart parts. -/
  | nameError
  /-- `IndexError`, raised by `content_obj["response"]["docs"][0]` on an
  empty `docs` array. -/
  | indexError
  /-- `UnicodeDecodeError`, raised by `string.decode("utf-8")` in
  `header_parser` on a header block that is not valid UTF-8. -/
  | unicodeDecodeError
deriving DecidableEq, Repr

/-- `\r\n` as bytes. -/
def crlf : Bytes := [13, 10]

/-- `\r\n\r\n`, the header/body separator of a multipart part. -/
def crlf2 : Bytes := [13, 10, 13, 10]

/-- `startsWith s p` is `true` iff `p` is a (byte-wise) prefix of `s`. -/
def startsWith (s p : Bytes) : Bool :=
  match p with
  | [] => true
  | b :: p2 =>
    match s with
    | [] => false
    | a :: s2 => (a == b) && startsWith s2 p2
termination_by structural p

/-- `containsSub sep s` is `true` iff `sep` occurs in `s` as a contiguous
substring (Python's `sep in s` for bytes). -/
def containsSub (sep : Bytes) : Bytes → Bool
  | [] => startsWith [] sep
  | c :: rest => startsWith (c :: rest) sep || containsSub sep rest

/-- Index of the first occurrence of `sep` in `s` (Python `s.find(sep)`,
with `none` for `-1`). -/
def findSubIdx (sep : Bytes) : Bytes → Option Nat
  | [] => if startsWith [] sep then some 0 else none
  | c :: rest =>
    if startsWith (c :: rest) sep then some 0
    else (findSubIdx sep rest).map (· + 1)

/-- Fuel-driven worker for `pySplit`; the fuel is an upper bound on the
length of the string, so the `0` fallback is never reached from
`pySplit`. Structural recursion keeps it kernel-reducible. -/
def pySplitGo (sep : Bytes) : Nat → Bytes → List Bytes
  | _, [] => [[]]
  | 0, s => [s]
  | fuel + 1, c :: rest =>
    if (!sep.isEmpty) && startsWith (c :: rest) sep then
      [] :: pySplitGo sep fuel ((c :: rest).drop sep.length)
    else
      match pySplitGo sep fuel rest with
      | [] => [[c]]
      | chunk :: chunks => (c :: chunk) :: chunks

/-- Python `content.split(sep)` for a non-empty byte separator: split on
every non-overlapping occurrence, scanning left to right, keeping empty
chunks. -/
def pySplit (sep s : Bytes) : List Bytes := pySplitGo sep s.length s

/-- Python list slicing `parts[1:-1]`: drop the first and last element. -/
def pySlice1Neg1 (l : List Bytes) : List Bytes := (l.drop 1).dropLast

/-- Python `bytes.lstrip()` with no argument: strip leading ASCII
whitespace (space, tab, newline, carriage return, vertical tab, form
feed). -/
def pyLstrip (s : Bytes) : Bytes :=
  s.dropWhile fun c => c == 32 || c == 9 || c == 10 || c == 13 || c == 11 || c == 12

/-- Python `str.lstrip(' \t')`: strip leading spaces and tabs only. -/
def lstripSpTab (s : Bytes) : Bytes := s.dropWhile fun c => c == 32 || c == 9

/-- Python `str.rstrip('\r\n')`: strip trailing carriage returns and
newlines. -/
def rstripCRLF (s : Bytes) : Bytes :=
  (s.reverse.dropWhile fun c => c == 13 || c == 10).reverse

/-- Concatenation of a list of byte strings. -/
def catList : List Bytes → Bytes
  | [] => []
  | b :: bs => b ++ catList bs

/-- ASCII lowercasing of one byte, as done by `bytes.lower()`. -/
def lowerByte (b : Nat) : Nat := if 65 ≤ b ∧ b ≤ 90 then b + 32 else b

/-- Python `bytes.lower()`. -/
def lowerBytes (s : Bytes) : Bytes := s.map lowerByte

/-- Models `get_boundary` (processing_ahn3.py lines 35-40):
`re.search(rb"^\r\n(--.*)\r\n", response)`.  Without `re.MULTILINE` the
anchor `^` only matches at offset 0, and `.` matches every byte except
`\n`; so the regex matches iff the buffer starts with `\r\n`, the
remainder `s` contains a `\n` whose first occurrence (at index `j`) is
preceded by `\r`, and the bytes before that `\r` start with `--` (the
greedy group is everything before that first `\r\n`).  On a match the
function returns the matched group, a `bytes` object (`some`); on a
failed match it returns the *str* `""` (`none` — see `parse_response`). -/
def get_boundary (response : Bytes) : Option Bytes :=
  match response with
  | 13 :: 10 :: s =>
    match findSubIdx [10] s with
    | some j =>
      if 3 ≤ j ∧ s.take 2 = [45, 45] ∧ s.getD (j - 1) 0 = 13 then
        some (s.take (j - 1))
      else none
    | none => none
  | _ => none

/-- Models `split_on_find` (processing_ahn3.py lines 43-45):
`point = content.find(bound); return content[:point], content[point + len(bound):]`.
The `none` branch models `find` returning `-1` (then `content[:-1]` drops
the last byte and `content[-1 + len(bound):]` is `content[len(bound)-1:]`
for non-empty `bound`); in `parse_response` the call is guarded so that
branch is never taken. -/
def split_on_find (content bound : Bytes) : Bytes × Bytes :=
  match findSubIdx bound content with
  | some i => (content.take i, content.drop (i + bound.length))
  | none => (content.dropLast, content.drop (bound.length - 1))

/-- Range test for a UTF-8 continuation byte (`0x80`-`0xBF`). -/
def utf8Cont (c : Nat) : Bool := 0x80 ≤ c && c ≤ 0xBF

/-- Allowed range of the first continuation byte after the lead byte
`b`, per RFC 3629 (the `E0`/`ED`/`F0`/`F4` rows restrict it). -/
def utf8First (b c1 : Nat) : Bool :=
  if b = 0xE0 then 0xA0 ≤ c1 && c1 ≤ 0xBF
  else if b = 0xED then 0x80 ≤ c1 && c1 ≤ 0x9F
  else if b = 0xF0 then 0x90 ≤ c1 && c1 ≤ 0xBF
  else if b = 0xF4 then 0x80 ≤ c1 && c1 ≤ 0x8F
  else utf8Cont c1

/-- Decode one UTF-8 scalar whose lead byte is `b` and whose remaining
input is `rest`: `some` of the input after the sequence on success,
`none` on an invalid sequence (RFC 3629 table). -/
def utf8Step1 (b : Nat) (rest : Bytes) : Option Bytes :=
  if b ≤ 0x7F then some rest
  else if 0xC2 ≤ b ∧ b ≤ 0xDF then
    match rest with
    | c1 :: r => if utf8Cont c1 then some r else none
    | [] => none
  else if b = 0xE0 ∨ (0xE1 ≤ b ∧ b ≤ 0xEC) ∨ b = 0xED ∨ (0xEE ≤ b ∧ b ≤ 0xEF) then
    match rest with
    | c1 :: c2 :: r => if utf8First b c1 && utf8Cont c2 then some r else none
    | _ => none
  else if b = 0xF0 ∨ (0xF1 ≤ b ∧ b ≤ 0xF3) ∨ b = 0xF4 then
    match rest with
    | c1 :: c2 :: c3 :: r =>
      if utf8First b c1 && utf8Cont c2 && utf8Cont c3 then some r else none
    | _ => none
  else none

/-- Fuel-driven scalar-by-scalar validation loop; the fuel bounds the
input length, so the `0` fallback is never reached from `validUtf8`. -/
def utf8Go : Nat → Bytes → Bool
  | _, [] => true
  | 0, _ :: _ => false
  | fuel + 1, b :: rest =>
    match utf8Step1 b rest with
    | none => false
    | some r => utf8Go fuel r

/-- Validity of a byte string as UTF-8 (RFC 3629), the success condition
of Python's `bytes.decode("utf-8")`. -/
def validUtf8 (s : Bytes) : Bool := utf8Go s.length s

/-- Python `str.splitlines(keepends=True)` restricted to the `\r\n`, `\r`
and `\n` line boundaries, which is how the email feed parser cuts the
header block into source lines.  (The full Unicode set also breaks on
`\v`, `\f`, `\x1c`-`\x1e`, `\x85` and the U+2028/U+2029 separators; those do not occur
in the ASCII header blocks the surrounding claims range over.) -/
def splitLines : Bytes → List Bytes
  | [] => []
  | c :: rest =>
    if c = 13 then
      match rest with
      | 10 :: rest2 => [13, 10] :: splitLines rest2
      | r => [13] :: splitLines r
    else if c = 10 then
      [10] :: splitLines rest
    else
      match splitLines rest with
      | [] => [[c]]
      | l :: ls => (c :: l) :: ls

/-- Is a header source line a continuation line (`line[0] in ' \t'`)? -/
def contLine (l : Bytes) : Bool := l.headD 0 == 32 || l.headD 0 == 9

/-- Models the `lastheader`/`lastvalue` grouping loop of the email
package's `FeedParser._parse_headers` (policy `compat32`): each
non-continuation line starts a header, and the following continuation
lines are collected with it.  A continuation line with no preceding
header is dropped (CPython records a defect). -/
def groupGo : List Bytes → Option (Bytes × List Bytes) → List (Bytes × List Bytes)
  | [], none => []
  | [], some (h, vs) => [(h, vs.reverse)]
  | l :: rest, none =>
    if contLine l then groupGo rest none
    else groupGo rest (some (l, []))
  | l :: rest, some (h, vs) =>
    if contLine l then groupGo rest (some (h, l :: vs))
    else (h, vs.reverse) :: groupGo rest (some (l, []))

/-- Models `Compat32.header_source_parse` of the email package: the name
is everything before the first `:` of the first source line, the value is
everything after it with leading spaces and tabs stripped, followed by
the continuation lines, with trailing `\r` and `\n` stripped.  A line
with no colon produces no header here (CPython records a defect and, via
`headerRE`, stops header parsing; the claims never reach that path). -/
def headerOfGroup (g : Bytes × List Bytes) : Option (Bytes × Bytes) :=
  match findSubIdx [58] g.1 with
  | some i => some (g.1.take i, rstripCRLF (lstripSpTab (g.1.drop (i + 1)) ++ catList g.2))
  | none => none

/-- Models `header_parser` (processing_ahn3.py lines 54-57) at the byte
level: `string.decode(encoding)` followed by
`email.parser.HeaderParser().parsestr(string).items()` and re-encoding of
every name and value.  For valid UTF-8 input, decode/encode round-trips
and all the splitting is on ASCII bytes, so the whole pipeline can be
modelled directly on bytes.  (The UTF-8 validity check itself is made by
the caller, `partRecord`.) -/
def parseHeaderBytes (s : Bytes) : List (Bytes × Bytes) :=
  (groupGo (splitLines s) none).filterMap headerOfGroup

/-- One insertion into a `requests.structures.CaseInsensitiveDict`:
`self._store[key.lower()] = (key, value)` — if an entry with the same
lowercased key exists its slot is overwritten in place, otherwise the
entry is appended (dict insertion order). -/
def ciInsert (store : List (Bytes × Bytes)) (kv : Bytes × Bytes) : List (Bytes × Bytes) :=
  if store.any (fun e => lowerBytes e.1 == lowerBytes kv.1) then
    store.map fun e => if lowerBytes e.1 == lowerBytes kv.1 then kv else e
  else store ++ [kv]

/-- `CaseInsensitiveDict(data)`: insert the pairs in order. -/
def ciFromList (l : List (Bytes × Bytes)) : List (Bytes × Bytes) :=
  l.foldl ciInsert []

/-- `d[key]` on a `CaseInsensitiveDict`, comparing lowercased keys;
`none` models a `KeyError`. -/
def ciLookup (store : List (Bytes × Bytes)) (k : Bytes) : Option Bytes :=
  (store.find? fun e => lowerBytes e.1 == lowerBytes k).map fun e => e.2

/-- One parsed multipart part: the `{"headers": ..., "content": ...}`
dict built by `parse_response`.  `headers` is the backing store of the
`CaseInsensitiveDict` in insertion order. -/
structure MimePart where
  headers : List (Bytes × Bytes)
  content : Bytes
deriving DecidableEq, Repr

/-- Processing of one boundary-delimited fragment inside the loop of
`parse_response` (processing_ahn3.py lines 66-74): a fragment without the
`\r\n\r\n` separator yields no record (`ok none`); otherwise the fragment
is split at the first `\r\n\r\n`, the header block is left-stripped,
decoded (UTF-8 validity required, else `UnicodeDecodeError`), header
parsed, and wrapped with the body into a record. -/
def partRecord (part : Bytes) : Except PyError (Option MimePart) :=
  if containsSub crlf2 part then
    let fb := split_on_find part crlf2
    let stripped := pyLstrip fb.1
    if validUtf8 stripped then
      .ok (some ⟨ciFromList (parseHeaderBytes stripped), fb.2⟩)
    else .error .unicodeDecodeError
  else .ok none

/-- The loop of `parse_response` over `parts[1:-1]`: records are appended
in order of appearance; an exception raised for one fragment aborts the
whole call. -/
def processFragments : List Bytes → Except PyError (List MimePart)
  | [] => .ok []
  | frag :: rest =>
    match partRecord frag with
    | .error e => .error e
    | .ok none => processFragments rest
    | .ok (some r) =>
      match processFragments rest with
      | .error e => .error e
      | .ok rs => .ok (r :: rs)

/-- `content.split(b"\r\n" + sep)[1:-1]`: the boundary-delimited
fragments with the preamble and the closing fragment discarded. -/
def middleFragments (content sep : Bytes) : List Bytes :=
  pySlice1Neg1 (pySplit (crlf ++ sep) content)

/-- Models `parse_response` (processing_ahn3.py lines 60-75).  When
`get_boundary` fails it returns the *str* `""`, and
`b"".join((b"\r\n", sep))` then raises
`TypeError: sequence item 1: expected a bytes-like object, str found`;
so the no-match case is an error, not a degenerate split. -/
def parse_response (content : Bytes) : Except PyError (List MimePart) :=
  match get_boundary content with
  | none => .error .typeError
  | some sep => processFragments (middleFragments content sep)

/-- `b"content-type"`: the header key used by the coverage scan. -/
def contentTypeKey : Bytes := [99, 111, 110, 116, 101, 110, 116, 45, 116, 121, 112, 101]

/-- `b"image/tiff"`: the content type selecting the coverage part. -/
def imageTiff : Bytes := [105, 109, 97, 103, 101, 47, 116, 105, 102, 102]

/-- The loop of `PDOKWCSTool.get_ahn_val` (processing_ahn3.py lines
201-203) threading the `coverage` local variable: `acc` is `none` while
`coverage` is still unbound.  A part without a `content-type` header
raises `KeyError`; a part whose content type equals `image/tiff`
overwrites `coverage` with its content. -/
def coverageScan : List MimePart → Option Bytes → Except PyError (Option Bytes)
  | [], acc => .ok acc
  | p :: rest, acc =>
    match ciLookup p.headers contentTypeKey with
    | none => .error .keyError
    | some ct => coverageScan rest (if ct = imageTiff then some p.content else acc)

/-- The coverage selected by `get_ahn_val` from the parsed parts: the
scan of lines 201-203 followed by the first read of `coverage` at line
207, which raises `UnboundLocalError` (a `NameError`) when no part
matched. -/
def extract_coverage (parts : List MimePart) : Except PyError Bytes :=
  match coverageScan parts none with
  | .error e => .error e
  | .ok none => .error .nameError
  | .ok (some c) => .ok c

/-- The six-parameter affine GeoTransform returned by
`ds.GetGeoTransform()`. -/
structure GeoTransform where
  gt0 : ℚ
  gt1 : ℚ
  gt2 : ℚ
  gt3 : ℚ
  gt4 : ℚ
  gt5 : ℚ

/-- An opened raster dataset: its GeoTransform and its band read as a 1x1
32-bit-float window at pixel indices `(px, py)` (the
`band.ReadRaster(px, py, 1, 1, buf_type=gdal.GDT_Float32)` +
`struct.unpack("f", ...)` pipeline). -/
structure Raster where
  geotransform : GeoTransform
  band : Int → Int → ℚ

/-- Models `PDOKWCSTool.get_ahn_val` (processing_ahn3.py lines 200-215)
after the HTTP GET: the response has been parsed into `parts`, and GDAL
(`gdal.FileFromMemBuffer` / `gdal.Open`) is the oracle `load` turning
coverage bytes into a raster.  The pixel indices are
`px = floor((x - gt[0]) / gt[1])` and `py = floor((y - gt[3]) / gt[5])`,
and the sampled float is returned untouched. -/
def get_ahn_val (load : Bytes → Raster) (parts : List MimePart) (x y : ℚ) : Except PyError ℚ :=
  match extract_coverage parts with
  | .error e => .error e
  | .ok coverage =>
    let ds := load coverage
    let gt := ds.geotransform
    let px : Int := ⌊(x - gt.gt0) / gt.gt1⌋
    let py : Int := ⌊(y - gt.gt3) / gt.gt5⌋
    .ok (ds.band px py)

/-- The AHN3 WCS no-data sentinel `3.4028234663852886e38` compared
against at processing_ahn3.py line 265. -/
def NODATA : ℚ := 3.4028234663852886e38

/-- Models processing_ahn3.py lines 263-267: the value written into the
elevation attribute — the sentinel becomes `None`, every other sampled
value is written unchanged. -/
def translate_ahn_val (v : ℚ) : Option ℚ :=
  if v = NODATA then none else some v

/-- Models processing_ahn3.py lines 193-196: the 2-cell GetCoverage
request window around the point, using the grid origin and the cell size
(Python float floor-division `//` is `Int.floor` of the exact quotient).
Returns `((x_lower, x_upper), (y_lower, y_upper))`. -/
def subset_bounds (origin : ℚ × ℚ) (cell_size : ℚ) (x y : ℚ) : (ℚ × ℚ) × (ℚ × ℚ) :=
  let x_lower_bound := origin.1 + (⌊(x - origin.1) / cell_size⌋ * cell_size : ℚ)
  let x_upper_bound := x_lower_bound + 2 * cell_size
  let y_lower_bound := origin.2 + (⌊(y - origin.2) / cell_size⌋ * cell_size : ℚ)
  let y_upper_bound := y_lower_bound + 2 * cell_size
  ((x_lower_bound, x_upper_bound), (y_lower_bound, y_upper_bound))

/-- The `response` object of a Locatieserver lookup reply:
`numFound` and the `docs` array. -/
structure LSResponse (α : Type) where
  numFound : Int
  docs : List α

/-- Models `lookup_object` (locatieserver.py lines 106-117) after the
HTTP GET: `if content_obj["response"]["numFound"] != 1: return None`,
otherwise `return content_obj["response"]["docs"][0]` (an `IndexError`
if the service reported `numFound == 1` with an empty `docs`). -/
def lookup_object {α : Type} (resp : LSResponse α) : Except PyError (Option α) :=
  if resp.numFound ≠ 1 then .ok none
  else
    match resp.docs with
    | [] => .error .indexError
    | d :: _ => .ok (some d)

/-- One synthetic input part for the round-trip property: the known
header pairs and the body bytes. -/
structure RawPart where
  headers : List (Bytes × Bytes)
  body : Bytes
deriving DecidableEq, Repr

/-- Serialization of one header pair as the line `key: value`. -/
def serializeHeader (kv : Bytes × Bytes) : Bytes := kv.1 ++ [58, 32] ++ kv.2

/-- Join a list of byte strings with a separator between consecutive
elements. -/
def joinSep (sep : Bytes) : List Bytes → Bytes
  | [] => []
  | [l] => l
  | l :: ls => l ++ sep ++ joinSep sep ls

/-- The header block of a part: its `key: value` lines joined by `\r\n`
(the blank line separating headers from body is added by `buildPart`). -/
def serializeHeaders (hs : List (Bytes × Bytes)) : Bytes :=
  joinSep crlf (hs.map serializeHeader)

/-- `\r\n` followed by the boundary token: the separator string that
`parse_response` splits the buffer on. -/
def sepFor (bound : Bytes) : Bytes := crlf ++ bound

/-- The bytes of one part as they appear between two boundary
separators: `\r\n` + header block + `\r\n\r\n` + body. -/
def fragmentOf (p : RawPart) : Bytes :=
  crlf ++ serializeHeaders p.headers ++ crlf ++ crlf ++ p.body

/-- One part of the synthetic multipart buffer, preceded by
`\r\n` + boundary + `\r\n` exactly as the round-trip claim describes. -/
def buildPart (bound : Bytes) (p : RawPart) : Bytes :=
  crlf ++ bound ++ crlf ++ serializeHeaders p.headers ++ crlf ++ crlf ++ p.body

/-- The closing delimiter fragment: `\r\n` + boundary + `--` + `\r\n`. -/
def closingDelim (bound : Bytes) : Bytes := crlf ++ bound ++ [45, 45] ++ crlf

/-- The synthetic multipart buffer of the round-trip claim: the N parts
in order, then the closing delimiter. -/
def buildMultipart (bound : Bytes) (ps : List RawPart) : Bytes :=
  catList (ps.map (buildPart bound)) ++ closingDelim bound

/-- Well-formedness of a header name: non-empty printable ASCII with no
colon and no space (an RFC 822 field name). -/
def wfKey (k : Bytes) : Prop :=
  k ≠ [] ∧ ∀ b ∈ k, 33 ≤ b ∧ b ≤ 126 ∧ b ≠ 58

/-- Well-formedness of a header value: printable ASCII (in particular no
line breaks) and no leading space (which serialization would merge into
the `: ` separator). -/
def wfValue (v : Bytes) : Prop :=
  (∀ b ∈ v, 32 ≤ b ∧ b ≤ 126) ∧ v.head? ≠ some 32

/-- Well-formedness of one part's header list: at least one header,
well-formed names and values, and case-insensitively distinct names (so
the `CaseInsensitiveDict` keeps every pair). -/
def wfHeaders (hs : List (Bytes × Bytes)) : Prop :=
  hs ≠ [] ∧ (∀ kv ∈ hs, wfKey kv.1 ∧ wfValue kv.2) ∧
    (hs.map fun kv => lowerBytes kv.1).Nodup

/-- Well-formedness of one synthetic part relative to the boundary: its
headers are well-formed and the separator `\r\n` + boundary does not
occur in the part's fragment (the standard MIME assumption that the
boundary does not collide with the content; the `dropLast` form says
that no occurrence of the separator starts before the one that
terminates the fragment). -/
def wfPart (bound : Bytes) (p : RawPart) : Prop :=
  wfHeaders p.headers ∧
    containsSub (sepFor bound) ((fragmentOf p ++ sepFor bound).dropLast) = false

/-- Well-formedness of a boundary token: it starts with `--` and
contains no newline byte. -/
def wfBoundary (bound : Bytes) : Prop :=
  startsWith bound [45, 45] = true ∧ (10 : Nat) ∉ bound

instance (k : Bytes) : Decidable (wfKey k) := by
  unfold wfKey
  infer_instance

instance (v : Bytes) : Decidable (wfValue v) := by
  unfold wfValue
  infer_instance

instance (hs : List (Bytes × Bytes)) : Decidable (wfHeaders hs) := by
  unfold wfHeaders
  infer_instance

instance (bound : Bytes) (p : RawPart) : Decidable (wfPart bound p) := by
  unfold wfPart
  infer_instance

instance (bound : Bytes) : Decidable (wfBoundary bound) := by
  unfold wfBoundary
  infer_instance

/-- The scan condition of `get_ahn_val` line 202:
`part["headers"][b"content-type"] == b"image/tiff"` (on a part that has
the header). -/
def isTiff (p : MimePart) : Bool :=
  ciLookup p.headers contentTypeKey == some imageTiff

/-- A header list declaring `content-type: image/tiff`, for the concrete
witnesses below. -/
def exTiffHeader : List (Bytes × Bytes) := [(contentTypeKey, imageTiff)]

/-- A tiff part with content `[1]`. -/
def exPart1 : MimePart := ⟨exTiffHeader, [1]⟩

/-- A tiff part with content `[2]`. -/
def exPart2 : MimePart := ⟨exTiffHeader, [2]⟩

/-- A part with `content-type: text`, hence not matching the scan. -/
def exPartXml : MimePart := ⟨[(contentTypeKey, [116, 101, 120, 116])], [3]⟩

/-- A part with no headers at all, in particular no `content-type`. -/
def exPartNoCT : MimePart := ⟨[], [4]⟩

/-- A concrete raster band for the witnesses: sample value `px + py`. -/
def exBand : Int → Int → ℚ := fun px py => (px : ℚ) + (py : ℚ)

/-- A concrete raster whose GeoTransform is the one of the pixel-index
claim: `(100000, 0.5, 0, 500000, 0, -0.5)`. -/
def exRaster : Raster := ⟨⟨100000, 0.5, 0, 500000, 0, -0.5⟩, exBand⟩

/-- The GDAL oracle for the witnesses: every coverage loads `exRaster`. -/
def exLoad : Bytes → Raster := fun _ => exRaster

/-- The boundary token `--a` used by the concrete witnesses. -/
def exBound : Bytes := [45, 45, 97]

/-- A synthetic part with one header `K: v` and body `[66, 1, 2]`. -/
def exRaw1 : RawPart := ⟨[([75], [118])], [66, 1, 2]⟩

/-- A synthetic part with headers `XY: z !` and `A:` (empty value) and
an empty body. -/
def exRaw2 : RawPart := ⟨[([88, 89], [122, 32, 33]), ([65], [])], []⟩

/-- The buffer `\r\n--a\r\nX\r\n--a\r\nK: v\r\n\r\nB\r\n--a--\r\n`: one
malformed fragment (no `\r\n\r\n`) followed by one well-formed part. -/
def exMalBuf : Bytes :=
  [13, 10] ++ exBound ++ [13, 10] ++ [88] ++
    [13, 10] ++ exBound ++ [13, 10] ++ [75, 58, 32, 118] ++ [13, 10, 13, 10] ++ [66] ++
    [13, 10] ++ exBound ++ [45, 45] ++ [13, 10]

/-- The malformed fragment `\r\nX` of `exMalBuf`. -/
def exMalFrag : Bytes := [13, 10, 88]

/-- The well-formed fragment `\r\nK: v\r\n\r\nB` of `exMalBuf`. -/
def exGoodFrag : Bytes := [13, 10, 75, 58, 32, 118, 13, 10, 13, 10, 66]

/-- The source lines that `splitlines(keepends=True)` produces from a
serialized header block: every line carries its `\r\n` terminator except
the last one (the terminator before the body belongs to the `\r\n\r\n`
separator, which `split_on_find` removes). -/
def linesWithEnds : List (Bytes × Bytes) → List Bytes
  | [] => []
  | [kv] => [serializeHeader kv]
  | kv :: hs => (serializeHeader kv ++ crlf) :: linesWithEnds hs

/-! ## General lemmas about the byte-string machinery -/

theorem startsWith_nil (s : Bytes) : startsWith s [] = true := by
  cases s <;> rfl

theorem startsWith_append_self (p t : Bytes) : startsWith (p ++ t) p = true := by
  induction p with
  | nil => exact startsWith_nil t
  | cons a p ih => simp [startsWith, ih]

theorem startsWith_le_length {s p : Bytes} (h : startsWith s p = true) :
    p.length ≤ s.length := by
  induction p generalizing s with
  | nil => simp
  | cons b p ih =>
    cases s with
    | nil => simp [startsWith] at h
    | cons a s =>
      simp only [startsWith, Bool.and_eq_true] at h
      have := ih h.2
      simp only [List.length_cons]
      omega

theorem containsSub_of_startsWith {sep s : Bytes} (h : startsWith s sep = true) :
    containsSub sep s = true := by
  cases s with
  | nil => simpa [containsSub] using h
  | cons c rest => simp [containsSub, h]

theorem containsSub_cons_false {sep : Bytes} {c : Nat} {rest : Bytes}
    (h : containsSub sep (c :: rest) = false) :
    startsWith (c :: rest) sep = false ∧ containsSub sep rest = false := by
  simpa [containsSub] using h

theorem containsSub_of_short {sep s : Bytes} (h : s.length < sep.length) :
    containsSub sep s = false := by
  induction s with
  | nil =>
    cases sep with
    | nil => simp at h
    | cons b p => simp [containsSub, startsWith]
  | cons c rest ih =>
    have h1 : startsWith (c :: rest) sep = false := by
      cases hsw : startsWith (c :: rest) sep
      · rfl
      · have := startsWith_le_length hsw
        omega
    have h2 : containsSub sep rest = false := by
      apply ih
      simp only [List.length_cons] at h
      omega
    simp [containsSub, h1, h2]

theorem containsSub_sep_ne_nil {sep s : Bytes} (h : containsSub sep s = false) :
    sep ≠ [] := by
  intro hnil
  subst hnil
  cases s <;> simp [containsSub, startsWith] at h

theorem startsWith_take {s p : Bytes} (h : startsWith s p = true) (n : Nat)
    (hn : p.length ≤ n) : startsWith (s.take n) p = true := by
  induction p generalizing s n with
  | nil => exact startsWith_nil _
  | cons b p ih =>
    cases s with
    | nil => simp [startsWith] at h
    | cons a s =>
      simp only [startsWith, Bool.and_eq_true] at h
      cases n with
      | zero => simp at hn
      | succ m =>
        have hm : p.length ≤ m := by simpa using hn
        simp [List.take, startsWith, h.1, ih h.2 m hm]

theorem dropLast_as_take {α : Type} (l : List α) : l.dropLast = l.take (l.length - 1) := by
  induction l with
  | nil => rfl
  | cons a l ih =>
    cases l with
    | nil => rfl
    | cons b l =>
      simp only [List.dropLast_cons₂, List.length_cons, ih]
      rfl

theorem dropLast_cons_of_ne_nil {α : Type} {x : α} {l : List α} (h : l ≠ []) :
    (x :: l).dropLast = x :: l.dropLast := by
  cases l with
  | nil => exact absurd rfl h
  | cons b l => rfl

theorem findSubIdx_single (c : Nat) (L r : Bytes) (h : c ∉ L) :
    findSubIdx [c] (L ++ c :: r) = some L.length := by
  induction L with
  | nil => simp [findSubIdx, startsWith]
  | cons x L ih =>
    simp only [List.mem_cons, not_or] at h
    have hx : (x == c) = false := by
      simp only [beq_eq_false_iff_ne, ne_eq]
      exact fun hxc => h.1 hxc.symm
    simp [findSubIdx, startsWith, hx, ih h.2]

theorem getD_append_length (L : Bytes) (x : Nat) (r : Bytes) (d : Nat) :
    (L ++ x :: r).getD L.length d = x := by
  induction L with
  | nil => rfl
  | cons a L ih => simpa using ih

/-! ## Lemmas about `pySplit` -/

theorem pySplitGo_nil (sep : Bytes) (f : Nat) : pySplitGo sep f [] = [[]] := by
  cases f <;> rfl

theorem pySplitGo_fuel_eq (sep : Bytes) :
    ∀ f1 : Nat, ∀ s : Bytes, ∀ f2 : Nat, s.length ≤ f1 → s.length ≤ f2 →
      pySplitGo sep f1 s = pySplitGo sep f2 s := by
  intro f1
  induction f1 with
  | zero =>
    intro s f2 h1 _
    have : s = [] := by
      cases s with
      | nil => rfl
      | cons c r => simp at h1
    subst this
    simp [pySplitGo_nil]
  | succ f1 ih =>
    intro s f2 h1 h2
    cases s with
    | nil => simp [pySplitGo_nil]
    | cons c rest =>
      cases f2 with
      | zero => simp at h2
      | succ f2 =>
        simp only [pySplitGo]
        have hlen : rest.length ≤ f1 := by simpa using h1
        have hlen2 : rest.length ≤ f2 := by simpa using h2
        by_cases hb : ((!sep.isEmpty) && startsWith (c :: rest) sep) = true
        · simp only [hb, if_true]
          have hb2 := hb
          simp only [Bool.and_eq_true, Bool.not_eq_true'] at hb2
          have hsep1 : 1 ≤ sep.length := by
            cases sep with
            | nil => simp at hb2
            | cons p q => simp
          have hd1 : ((c :: rest).drop sep.length).length ≤ f1 := by
            simp only [List.length_drop, List.length_cons]
            omega
          have hd2 : ((c :: rest).drop sep.length).length ≤ f2 := by
            simp only [List.length_drop, List.length_cons]
            omega
          rw [ih _ _ hd1 hd2]
        · simp only [Bool.not_eq_true] at hb
          simp only [hb, Bool.false_eq_true, if_false]
          rw [ih _ _ hlen hlen2]

theorem pySplitGo_not_contains (sep : Bytes) :
    ∀ (s : Bytes) (f : Nat), s.length ≤ f → containsSub sep s = false →
      pySplitGo sep f s = [s] := by
  intro s
  induction s with
  | nil => intro f _ _; simp [pySplitGo_nil]
  | cons c rest ih =>
    intro f hf h
    obtain ⟨h1, h2⟩ := containsSub_cons_false h
    cases f with
    | zero => simp at hf
    | succ f =>
      have hlen : rest.length ≤ f := by simpa using hf
      simp only [pySplitGo, h1, Bool.and_false, Bool.false_eq_true, if_false]
      rw [ih f hlen h2]

theorem pySplit_not_contains {sep s : Bytes} (h : containsSub sep s = false) :
    pySplit sep s = [s] :=
  pySplitGo_not_contains sep s s.length le_rfl h

theorem startsWith_false_of_not_contains {sep a b : Bytes} {x : Nat} {a' : Bytes}
    (ha : a = x :: a')
    (h : containsSub sep ((a ++ sep).dropLast) = false) :
    startsWith (a ++ sep ++ b) sep = false := by
  cases hsw : startsWith (a ++ sep ++ b) sep
  · rfl
  · exfalso
    have hne : sep ≠ [] := containsSub_sep_ne_nil h
    have hsep1 : 1 ≤ sep.length := by
      cases sep with
      | nil => exact absurd rfl hne
      | cons u v => simp
    have ha1 : 1 ≤ a.length := by subst ha; simp
    have hlen : sep.length ≤ a.length + sep.length - 1 := by omega
    have htake := startsWith_take hsw (a.length + sep.length - 1) hlen
    have heq : (a ++ sep ++ b).take (a.length + sep.length - 1) = (a ++ sep).dropLast := by
      rw [dropLast_as_take]
      have h1 : a.length + sep.length - 1 ≤ (a ++ sep).length := by
        simp only [List.length_append]
        omega
      rw [show a ++ sep ++ b = (a ++ sep) ++ b from by simp,
        List.take_append_of_le_length h1]
      congr 1
      simp
    rw [heq] at htake
    rw [containsSub_of_startsWith htake] at h
    exact Bool.true_eq_false.mp h

theorem pySplit_sep_append (sep a b : Bytes)
    (h : containsSub sep ((a ++ sep).dropLast) = false) :
    pySplit sep (a ++ sep ++ b) = a :: pySplit sep b := by
  have hne : sep ≠ [] := containsSub_sep_ne_nil h
  induction a generalizing b with
  | nil =>
    simp only [List.nil_append]
    cases hsep : sep with
    | nil => exact absurd hsep hne
    | cons u v =>
      rw [← hsep]
      show pySplitGo sep (sep ++ b).length (sep ++ b) = [] :: pySplit sep b
      have hlen : (sep ++ b).length = sep.length + b.length := by simp
      cases hlsplit : sep ++ b with
      | nil =>
        exfalso
        have : sep = [] := by
          cases sep with
          | nil => rfl
          | cons p q => simp at hlsplit
        exact hne this
      | cons c rest =>
        rw [← hlsplit]
        have hfc : (sep ++ b).length = rest.length + 1 := by rw [hlsplit]; simp
        rw [hfc]
        rw [show pySplitGo sep (rest.length + 1) (sep ++ b) =
          pySplitGo sep (rest.length + 1) (c :: rest) from by rw [hlsplit]]
        simp only [pySplitGo]
        have hsw : startsWith (c :: rest) sep = true := by
          rw [← hlsplit]; exact startsWith_append_self sep b
        have hemp : (!sep.isEmpty) = true := by
          cases sep with
          | nil => exact absurd rfl hne
          | cons p q => rfl
        simp only [hemp, hsw, Bool.and_self, if_true]
        congr 1
        have hdrop : (c :: rest).drop sep.length = b := by
          rw [← hlsplit, List.drop_left]
        rw [hdrop]
        apply pySplitGo_fuel_eq
        · have hsum : rest.length + 1 = sep.length + b.length := by
            rw [← hfc]; simp
          have hsep1 : 1 ≤ sep.length := by
            cases sep with
            | nil => exact absurd rfl hne
            | cons p q => simp
          omega
        · exact le_rfl
  | cons x a' ih =>
    have hstep : containsSub sep ((a' ++ sep).dropLast) = false := by
      have hnn : a' ++ sep ≠ [] := by
        cases sep with
        | nil => exact absurd rfl hne
        | cons p q => simp
      have := dropLast_cons_of_ne_nil (x := x) hnn
      rw [show (x :: a') ++ sep = x :: (a' ++ sep) from rfl, this] at h
      exact (containsSub_cons_false h).2
    have hsw : startsWith ((x :: a') ++ sep ++ b) sep = false :=
      startsWith_false_of_not_contains rfl h
    show pySplitGo sep ((x :: a') ++ sep ++ b).length ((x :: a') ++ sep ++ b) = _
    rw [show (x :: a') ++ sep ++ b = x :: (a' ++ sep ++ b) from rfl]
    simp only [List.length_cons, pySplitGo]
    rw [show startsWith (x :: (a' ++ sep ++ b)) sep = false from hsw]
    simp only [Bool.and_false, if_false]
    have hfe : pySplitGo sep (a' ++ sep ++ b).length (a' ++ sep ++ b) =
        a' :: pySplit sep b := ih b hstep
    rw [pySplitGo_fuel_eq sep ((a' ++ sep ++ b).length) (a' ++ sep ++ b)
      ((a' ++ sep ++ b).length) le_rfl le_rfl] at hfe
    rw [hfe]
    simp

theorem containsSub_dropLast_self {sep : Bytes} (h : sep ≠ []) :
    containsSub sep sep.dropLast = false := by
  apply containsSub_of_short
  rw [List.length_dropLast]
  cases sep with
  | nil => exact absurd rfl h
  | cons p q => simp

theorem dropLast_snoc (l : List Bytes) (a : Bytes) : (l ++ [a]).dropLast = l := by
  induction l with
  | nil => rfl
  | cons x l ih =>
    rw [List.cons_append, dropLast_cons_of_ne_nil (by simp), ih]

theorem pySplit_chain (sep tail2 : Bytes) (gs : List Bytes)
    (hg : ∀ g ∈ gs, containsSub sep ((g ++ sep).dropLast) = false)
    (ht : containsSub sep tail2 = false) :
    pySplit sep (catList (gs.map (· ++ sep)) ++ tail2) = gs ++ [tail2] := by
  induction gs with
  | nil =>
    simpa [catList] using pySplit_not_contains ht
  | cons g gs ih =>
    have hgg := hg g (List.mem_cons_self g gs)
    have hrest : ∀ g2 ∈ gs, containsSub sep ((g2 ++ sep).dropLast) = false :=
      fun g2 h2 => hg g2 (List.mem_cons_of_mem g h2)
    have heq : catList ((g :: gs).map (· ++ sep)) ++ tail2 =
        g ++ sep ++ (catList (gs.map (· ++ sep)) ++ tail2) := by
      simp [catList, List.append_assoc]
    rw [heq, pySplit_sep_append sep g _ hgg, ih hrest]
    rfl

/-! ## Claim theorems -/

/-- C8 (**Boundary detection**): for every buffer beginning with
`\r\n--abc123\r\n`, `get_boundary` returns the token `--abc123` — the
matched group of `^\r\n(--.*)\r\n` — carrying the leading double dash
and not the surrounding `\r\n`. -/
theorem boundary_detection (rest : Bytes) :
    get_boundary ([13, 10, 45, 45, 97, 98, 99, 49, 50, 51, 13, 10] ++ rest) =
      some [45, 45, 97, 98, 99, 49, 50, 51] := rfl

/-- C6 counterexample: the claim says that on a buffer that does not
begin with a `^\r\n(--.*)\r\n` match, `parse_response` still completes
and returns a (degenerate) result list.  On the concrete buffer `b""`
(which has no match) the code instead raises: `get_boundary` returns the
*str* `""`, and `b"".join((b"\r\n", sep))` raises
`TypeError: sequence item 1: expected a bytes-like object, str found`. -/
theorem degenerate_boundary_raises :
    parse_response [] = Except.error PyError.typeError := rfl

/-- C6 (amended): for every input buffer that does not begin with a line
matching `^\r\n(--.*)\r\n`, `get_boundary` returns the empty *str*
(modelled `none`) and `parse_response` raises a `TypeError` when joining
it with `b"\r\n"` — it does not return a result list. -/
theorem degenerate_boundary_type_error (content : Bytes)
    (h : get_boundary content = none) :
    parse_response content = .error .typeError := by
  simp [parse_response, h]

theorem degenerate_boundary_type_error_witness :
    parse_response [104, 105] = Except.error PyError.typeError :=
  degenerate_boundary_type_error [104, 105] rfl

/-- C2 (**Pixel index formula**): for every GeoTransform
`(gt0, gt1, 0, gt3, 0, gt5)` with `gt1 ≠ 0` and `gt5 ≠ 0` and every
query point `(x, y)`, the sampler computes
`px = floor((x - gt0) / gt1)` and `py = floor((y - gt3) / gt5)`; in
particular for `gt = (100000, 0.5, 0, 500000, 0, -0.5)` and point
`(100001.2, 499998.7)` it computes `px = 2` and `py = 2`. -/
theorem pixel_index_formula (gt0 gt1 gt3 gt5 : ℚ) (band : Int → Int → ℚ)
    (load : Bytes → Raster) (parts : List MimePart) (cov : Bytes) (x y : ℚ)
    (hgt1 : gt1 ≠ 0) (hgt5 : gt5 ≠ 0)
    (hcov : extract_coverage parts = .ok cov)
    (hload : load cov = ⟨⟨gt0, gt1, 0, gt3, 0, gt5⟩, band⟩) :
    get_ahn_val load parts x y = .ok (band ⌊(x - gt0) / gt1⌋ ⌊(y - gt3) / gt5⌋) ∧
    ⌊((100001.2 : ℚ) - 100000) / (0.5 : ℚ)⌋ = 2 ∧
    ⌊((499998.7 : ℚ) - 500000) / (-0.5 : ℚ)⌋ = 2 := by
  refine ⟨?_, by norm_num, by norm_num⟩
  simp [get_ahn_val, hcov, hload]

theorem pixel_index_formula_witness :
    get_ahn_val exLoad [exPart1] 100001.2 499998.7 =
      .ok (exBand ⌊((100001.2 : ℚ) - 100000) / (0.5 : ℚ)⌋
        ⌊((499998.7 : ℚ) - 500000) / (-0.5 : ℚ)⌋) ∧
    ⌊((100001.2 : ℚ) - 100000) / (0.5 : ℚ)⌋ = 2 ∧
    ⌊((499998.7 : ℚ) - 500000) / (-0.5 : ℚ)⌋ = 2 :=
  pixel_index_formula 100000 0.5 500000 (-0.5) exBand exLoad [exPart1] [1]
    100001.2 499998.7 (by norm_num) (by norm_num) rfl rfl

/-- C5 (**Subdivision-window formula**): for every origin, positive
`cell_size` and coordinate, the request window satisfies
`x_lower = origin_x + floor((x - origin_x) / cell_size) * cell_size` and
`x_upper = x_lower + 2 * cell_size`, and symmetrically for `y`; in
particular for origin `(0,0)`, `cell_size = 2`, `x = 5` the window is
`x_lower = 4`, `x_upper = 8`. -/
theorem subdivision_window_formula (ox oy c x y : ℚ) (hc : 0 < c) :
    (subset_bounds (ox, oy) c x y).1.1 = ox + ⌊(x - ox) / c⌋ * c ∧
    (subset_bounds (ox, oy) c x y).1.2 = (subset_bounds (ox, oy) c x y).1.1 + 2 * c ∧
    (subset_bounds (ox, oy) c x y).2.1 = oy + ⌊(y - oy) / c⌋ * c ∧
    (subset_bounds (ox, oy) c x y).2.2 = (subset_bounds (ox, oy) c x y).2.1 + 2 * c ∧
    subset_bounds (0, 0) 2 5 5 = ((4, 8), (4, 8)) :=
  ⟨rfl, rfl, rfl, rfl, by norm_num [subset_bounds]⟩

theorem subdivision_window_formula_witness :
    (subset_bounds ((0 : ℚ), (0 : ℚ)) 2 5 5).1.1 = 0 + ⌊((5 : ℚ) - 0) / 2⌋ * 2 ∧
    (subset_bounds ((0 : ℚ), (0 : ℚ)) 2 5 5).1.2 =
      (subset_bounds ((0 : ℚ), (0 : ℚ)) 2 5 5).1.1 + 2 * 2 ∧
    (subset_bounds ((0 : ℚ), (0 : ℚ)) 2 5 5).2.1 = 0 + ⌊((5 : ℚ) - 0) / 2⌋ * 2 ∧
    (subset_bounds ((0 : ℚ), (0 : ℚ)) 2 5 5).2.2 =
      (subset_bounds ((0 : ℚ), (0 : ℚ)) 2 5 5).2.1 + 2 * 2 ∧
    subset_bounds (0, 0) 2 5 5 = ((4, 8), (4, 8)) :=
  subdivision_window_formula 0 0 2 5 5 (by norm_num)

/-- C4 (**Sentinel translation**): `get_ahn_val` returns the raw sampled
float untouched, and the caller translates a sampled value exactly equal
to `3.4028234663852886e38` into an explicit no-value (`None`) attribute;
every other sampled value is written unchanged. -/
theorem sentinel_translation :
    translate_ahn_val NODATA = none ∧
    (∀ v : ℚ, v ≠ NODATA → translate_ahn_val v = some v) ∧
    (∀ (load : Bytes → Raster) (parts : List MimePart) (x y : ℚ) (cov : Bytes),
      extract_coverage parts = .ok cov →
      get_ahn_val load parts x y =
        .ok ((load cov).band
          ⌊(x - (load cov).geotransform.gt0) / (load cov).geotransform.gt1⌋
          ⌊(y - (load cov).geotransform.gt3) / (load cov).geotransform.gt5⌋)) := by
  refine ⟨by simp [translate_ahn_val], fun v hv => by simp [translate_ahn_val, hv],
    fun load parts x y cov h => by simp [get_ahn_val, h]⟩

theorem sentinel_translation_witness :
    translate_ahn_val 5 = some 5 ∧
    get_ahn_val exLoad [exPart1] 0 0 =
      .ok ((exLoad [1]).band
        ⌊((0 : ℚ) - (exLoad [1]).geotransform.gt0) / (exLoad [1]).geotransform.gt1⌋
        ⌊((0 : ℚ) - (exLoad [1]).geotransform.gt3) / (exLoad [1]).geotransform.gt5⌋) :=
  ⟨sentinel_translation.2.1 5 (by norm_num [NODATA]),
   sentinel_translation.2.2 exLoad [exPart1] 0 0 [1] rfl⟩

/-- C9 (**Lookup exactly-one**): `lookup_object` returns a result record
only when the response's `numFound` equals exactly 1 (in which case it
returns the first doc); when the service reports zero or more than one
matching record it returns `None` instead of a record. -/
theorem lookup_exactly_one {α : Type} (resp : LSResponse α) :
    (resp.numFound ≠ 1 → lookup_object resp = .ok none) ∧
    (∀ d rest, resp.numFound = 1 → resp.docs = d :: rest →
      lookup_object resp = .ok (some d)) ∧
    (∀ d : α, lookup_object resp = .ok (some d) →
      resp.numFound = 1 ∧ resp.docs.head? = some d) := by
  refine ⟨fun h => by simp [lookup_object, h],
    fun d rest h1 h2 => by simp [lookup_object, h1, h2], fun d h => ?_⟩
  by_cases h1 : resp.numFound = 1
  · cases hd : resp.docs with
    | nil => simp [lookup_object, h1, hd] at h
    | cons a t =>
      simp only [lookup_object, h1, ne_eq, not_true_eq_false, if_false, hd] at h
      cases h
      exact ⟨h1, by simp [hd]⟩
  · simp [lookup_object, h1] at h

theorem lookup_exactly_one_witness :
    lookup_object (α := Nat) ⟨2, [7]⟩ = .ok none ∧
    lookup_object (α := Nat) ⟨1, [7, 8]⟩ = .ok (some 7) :=
  ⟨(lookup_exactly_one ⟨2, [7]⟩).1 (by decide),
   (lookup_exactly_one ⟨1, [7, 8]⟩).2.1 7 [8] rfl rfl⟩

theorem coverageScan_keyError (parts : List MimePart) :
    ∀ acc, (∃ p ∈ parts, ciLookup p.headers contentTypeKey = none) →
      coverageScan parts acc = .error .keyError := by
  induction parts with
  | nil => intro acc h; simp at h
  | cons p rest ih =>
    intro acc h
    rcases h with ⟨q, hq, hnone⟩
    rcases List.mem_cons.mp hq with rfl | hmem
    · simp [coverageScan, hnone]
    · cases hc : ciLookup p.headers contentTypeKey with
      | none => simp [coverageScan, hc]
      | some ct =>
        simp only [coverageScan, hc]
        exact ih _ ⟨q, hmem, hnone⟩

/-- C10 (implicit precondition of the coverage scan): the scan assumes
every parsed part has a `content-type` header — for every part list
containing a part whose headers lack the key, the scan raises a
`KeyError` instead of treating that part as non-matching; absence of
such parts is therefore a precondition for the last-match-wins
contract. -/
theorem missing_content_type_key_error (parts : List MimePart)
    (h : ∃ p ∈ parts, ciLookup p.headers contentTypeKey = none) :
    extract_coverage parts = .error .keyError := by
  simp [extract_coverage, coverageScan_keyError parts none h]

theorem missing_content_type_key_error_witness :
    extract_coverage [exPart1, exPartNoCT] = Except.error PyError.keyError :=
  missing_content_type_key_error [exPart1, exPartNoCT] (by decide)

theorem getLast?_cons_or {α : Type} (p : α) (l : List α) :
    (p :: l).getLast? = l.getLast?.or (some p) := by
  induction l generalizing p with
  | nil => rfl
  | cons q l ih =>
    rw [show (p :: q :: l).getLast? = (q :: l).getLast? from rfl, ih q]
    cases l.getLast? <;> rfl

theorem coverageScan_ok (parts : List MimePart)
    (hct : ∀ p ∈ parts, (ciLookup p.headers contentTypeKey).isSome = true) :
    ∀ acc, coverageScan parts acc =
      .ok (((parts.filter isTiff).getLast?.map MimePart.content).or acc) := by
  induction parts with
  | nil => intro acc; rfl
  | cons p rest ih =>
    intro acc
    have hp := hct p (List.mem_cons_self p rest)
    rcases Option.isSome_iff_exists.mp hp with ⟨ct, hctp⟩
    have hrest : ∀ q ∈ rest, (ciLookup q.headers contentTypeKey).isSome = true :=
      fun q hq => hct q (List.mem_cons_of_mem p hq)
    by_cases htiff : ct = imageTiff
    · subst htiff
      have hT : isTiff p = true := by simp [isTiff, hctp]
      rw [show coverageScan (p :: rest) acc = coverageScan rest (some p.content) from by
        simp [coverageScan, hctp]]
      rw [ih hrest (some p.content), List.filter_cons_of_pos hT, getLast?_cons_or]
      cases hl : (rest.filter isTiff).getLast? <;> simp
    · have hT : isTiff p = false := by simp [isTiff, hctp, htiff]
      rw [show coverageScan (p :: rest) acc = coverageScan rest acc from by
        simp [coverageScan, hctp, htiff]]
      rw [ih hrest acc, List.filter_cons_of_neg (by simp [hT])]

/-- C3 (**Coverage extraction, last match wins**): under the
precondition that every parsed part carries a `content-type` header (the
precondition stated by claim C10), the scan selects the content of the
*last* part whose content type equals `image/tiff`; and when zero parts
match, reading the never-assigned `coverage` variable raises
`UnboundLocalError`, which the caller `processAlgorithm` wraps into a
user-facing `QgsProcessingException`, rather than proceeding with a
coverage value. -/
theorem coverage_last_match_wins (parts : List MimePart)
    (hct : ∀ p ∈ parts, (ciLookup p.headers contentTypeKey).isSome = true) :
    (∀ t, (parts.filter isTiff).getLast? = some t →
      extract_coverage parts = .ok t.content) ∧
    ((parts.filter isTiff) = [] → extract_coverage parts = .error .nameError) := by
  constructor
  · intro t ht
    simp [extract_coverage, coverageScan_ok parts hct none, ht]
  · intro h
    simp [extract_coverage, coverageScan_ok parts hct none, h]

theorem coverage_last_match_wins_witness :
    extract_coverage [exPart1, exPartXml, exPart2] = .ok exPart2.content ∧
    extract_coverage [exPartXml] = Except.error PyError.nameError :=
  ⟨(coverage_last_match_wins [exPart1, exPartXml, exPart2] (by decide)).1
      exPart2 (by decide),
   (coverage_last_match_wins [exPartXml] (by decide)).2 (by decide)⟩

theorem partRecord_no_sep {frag : Bytes} (h : containsSub crlf2 frag = false) :
    partRecord frag = .ok none := by
  simp [partRecord, h]

theorem processFragments_skip (pre post : List Bytes) (mal : Bytes)
    (hmal : partRecord mal = .ok none) :
    processFragments (pre ++ mal :: post) = processFragments (pre ++ post) := by
  induction pre with
  | nil => simp [processFragments, hmal]
  | cons q pre ih =>
    cases hq : partRecord q with
    | error e => simp [processFragments, hq]
    | ok o =>
      cases o with
      | none => simpa [processFragments, hq] using ih
      | some r => simp [processFragments, hq, ih]

/-- C7 (**Malformed-fragment skipping**): for every buffer whose
boundary-split fragments include one without the `\r\n\r\n` separator,
`parse_response` emits no record for that fragment and raises no error
for it: the result equals the processing of the remaining fragments, so
the fragment is silently dropped while all well-formed fragments are
still parsed and emitted in order. -/
theorem malformed_fragment_skipped (content sep : Bytes) (pre post : List Bytes)
    (mal : Bytes)
    (hb : get_boundary content = some sep)
    (hfrags : middleFragments content sep = pre ++ mal :: post)
    (hmal : containsSub crlf2 mal = false) :
    parse_response content = processFragments (pre ++ post) := by
  simp only [parse_response, hb, hfrags]
  exact processFragments_skip pre post mal (partRecord_no_sep hmal)

theorem malformed_fragment_skipped_witness :
    parse_response exMalBuf = processFragments ([] ++ [exGoodFrag]) :=
  malformed_fragment_skipped exMalBuf exBound [] [exGoodFrag] exMalFrag rfl rfl rfl

/-! ## Lemmas for the multipart round trip (C1) -/

theorem containsSub_append_left {sep t : Bytes} (a : Bytes)
    (h : containsSub sep t = true) : containsSub sep (a ++ t) = true := by
  induction a with
  | nil => simpa using h
  | cons x a ih => simp [containsSub, ih]

theorem startsWith_cons_neg {a c0 : Nat} (s sep2 : Bytes) (h : a ≠ c0) :
    startsWith (a :: s) (c0 :: sep2) = false := by
  have : (a == c0) = false := beq_eq_false_iff_ne.mpr h
  simp [startsWith, this]

theorem findSubIdx_cons_pos {sep : Bytes} {c : Nat} {rest : Bytes}
    (h : startsWith (c :: rest) sep = true) :
    findSubIdx sep (c :: rest) = some 0 := by
  simp [findSubIdx, h]

theorem findSubIdx_cons_neg {sep : Bytes} {c : Nat} {rest : Bytes}
    (h : startsWith (c :: rest) sep = false) :
    findSubIdx sep (c :: rest) = (findSubIdx sep rest).map (· + 1) := by
  simp [findSubIdx, h]

theorem findSubIdx_skip (c0 : Nat) (sep2 L rest : Bytes) (h : ∀ b ∈ L, b ≠ c0) :
    findSubIdx (c0 :: sep2) (L ++ rest) =
      (findSubIdx (c0 :: sep2) rest).map (· + L.length) := by
  induction L with
  | nil =>
    simp only [List.nil_append]
    cases h2 : findSubIdx (c0 :: sep2) rest <;> simp [h2]
  | cons x L ih =>
    have hx : x ≠ c0 := h x (List.mem_cons_self x L)
    have hrest : ∀ b ∈ L, b ≠ c0 := fun b hb => h b (List.mem_cons_of_mem x hb)
    rw [List.cons_append, findSubIdx_cons_neg (startsWith_cons_neg _ _ hx), ih hrest]
    cases findSubIdx (c0 :: sep2) rest <;> simp
    omega

theorem dropWhile_false {p : Nat → Bool} {l : Bytes} (h : ∀ b ∈ l, p b = false) :
    l.dropWhile p = l := by
  induction l with
  | nil => rfl
  | cons c l _ =>
    rw [List.dropWhile_cons_of_neg]
    simp [h c (List.mem_cons_self c l)]

theorem rstripCRLF_id {v : Bytes} (h : ∀ b ∈ v, b ≠ 13 ∧ b ≠ 10) :
    rstripCRLF v = v := by
  unfold rstripCRLF
  rw [dropWhile_false, List.reverse_reverse]
  intro b hb
  have := h b (List.mem_reverse.mp hb)
  simp [this.1, this.2]

theorem rstripCRLF_append_crlf {v : Bytes} (h : ∀ b ∈ v, b ≠ 13 ∧ b ≠ 10) :
    rstripCRLF (v ++ [13, 10]) = v := by
  unfold rstripCRLF
  have : (v ++ [13, 10]).reverse = 10 :: 13 :: v.reverse := by simp
  rw [this, List.dropWhile_cons_of_pos (by simp), List.dropWhile_cons_of_pos (by simp),
    dropWhile_false, List.reverse_reverse]
  intro b hb
  have := h b (List.mem_reverse.mp hb)
  simp [this.1, this.2]

theorem validUtf8_of_ascii {s : Bytes} (h : ∀ b ∈ s, b ≤ 127) : validUtf8 s = true := by
  induction s with
  | nil => rfl
  | cons b rest ih =>
    have hb : b ≤ 0x7F := h b (List.mem_cons_self b rest)
    have hrest : ∀ c ∈ rest, c ≤ 127 := fun c hc => h c (List.mem_cons_of_mem b hc)
    have hstep : utf8Step1 b rest = some rest := by
      unfold utf8Step1
      rw [if_pos hb]
    show utf8Go (b :: rest).length (b :: rest) = true
    rw [show (b :: rest).length = rest.length + 1 from by simp,
      show utf8Go (rest.length + 1) (b :: rest) =
        (match utf8Step1 b rest with
         | none => false
         | some r => utf8Go rest.length r) from rfl,
      hstep]
    exact ih hrest

theorem drop_append_cons (L : Bytes) (x : Nat) (r : Bytes) :
    (L ++ x :: r).drop (L.length + 1) = r := by
  have h1 : L ++ x :: r = (L ++ [x]) ++ r := by simp
  have h2 : L.length + 1 = (L ++ [x]).length := by simp
  rw [h1, h2, List.drop_left]

theorem findSubIdx_self {sep : Bytes} (b : Bytes) (h : sep ≠ []) :
    findSubIdx sep (sep ++ b) = some 0 := by
  cases sep with
  | nil => exact absurd rfl h
  | cons c s2 =>
    rw [List.cons_append]
    exact findSubIdx_cons_pos (startsWith_append_self (c :: s2) b)

theorem startsWith_crlf2_cons13 {x : Nat} (T : Bytes) (hx : x ≠ 13) :
    startsWith (13 :: 10 :: x :: T) crlf2 = false := by
  have hb : (x == 13) = false := beq_eq_false_iff_ne.mpr hx
  simp [startsWith, crlf2, hb]

theorem startsWith_crlf2_cons10 (T : Bytes) :
    startsWith (10 :: T) crlf2 = false := by
  simp [startsWith, crlf2]

theorem findSubIdx_skip_crlf2 (L rest : Bytes) (h : ∀ b ∈ L, b ≠ 13) :
    findSubIdx crlf2 (L ++ rest) = (findSubIdx crlf2 rest).map (· + L.length) :=
  findSubIdx_skip 13 [10, 13, 10] L rest h

theorem findSubIdx_header (lines : List Bytes) (body : Bytes)
    (h1 : ∀ L ∈ lines, L ≠ [])
    (h2 : ∀ L ∈ lines, ∀ b ∈ L, b ≠ 13 ∧ b ≠ 10)
    (hne : lines ≠ []) :
    findSubIdx crlf2 (crlf ++ joinSep crlf lines ++ crlf2 ++ body) =
      some (2 + (joinSep crlf lines).length) := by
  induction lines with
  | nil => exact absurd rfl hne
  | cons L ls ih =>
    have hL : L ≠ [] := h1 L (List.mem_cons_self L ls)
    have hLb : ∀ b ∈ L, b ≠ 13 ∧ b ≠ 10 := h2 L (List.mem_cons_self L ls)
    cases hLc : L with
    | nil => exact absurd hLc hL
    | cons x L2 =>
      subst hLc
      have hx13 : x ≠ 13 := (hLb x (List.mem_cons_self x L2)).1
      have hL13 : ∀ b ∈ x :: L2, b ≠ 13 := fun b hb => (hLb b hb).1
      cases ls with
      | nil =>
        have hJ : joinSep crlf [x :: L2] = x :: L2 := rfl
        rw [hJ]
        have hE : (crlf ++ (x :: L2) ++ crlf2 ++ body : Bytes)
            = 13 :: 10 :: ((x :: L2) ++ (crlf2 ++ body)) := by simp [crlf]
        rw [hE]
        have hsw1 : startsWith (13 :: 10 :: ((x :: L2) ++ (crlf2 ++ body))) crlf2 = false :=
          startsWith_crlf2_cons13 (L2 ++ (crlf2 ++ body)) hx13
        have hsw2 : startsWith (10 :: ((x :: L2) ++ (crlf2 ++ body))) crlf2 = false :=
          startsWith_crlf2_cons10 _
        rw [findSubIdx_cons_neg hsw1, findSubIdx_cons_neg hsw2,
          findSubIdx_skip_crlf2 (x :: L2) (crlf2 ++ body) hL13,
          findSubIdx_self body (by simp [crlf2])]
        simp only [Option.map_some']
        congr 1
        simp only [List.length_cons]
        omega
      | cons L3 ls2 =>
        have hrest1 : ∀ M ∈ L3 :: ls2, M ≠ [] :=
          fun M hM => h1 M (List.mem_cons_of_mem _ hM)
        have hrest2 : ∀ M ∈ L3 :: ls2, ∀ b ∈ M, b ≠ 13 ∧ b ≠ 10 :=
          fun M hM => h2 M (List.mem_cons_of_mem _ hM)
        have hJ : joinSep crlf ((x :: L2) :: L3 :: ls2)
            = (x :: L2) ++ crlf ++ joinSep crlf (L3 :: ls2) := rfl
        rw [hJ]
        have hE : (crlf ++ ((x :: L2) ++ crlf ++ joinSep crlf (L3 :: ls2)) ++ crlf2 ++ body : Bytes)
            = 13 :: 10 :: ((x :: L2) ++ (crlf ++ (joinSep crlf (L3 :: ls2) ++ (crlf2 ++ body)))) := by
          simp [crlf]
        rw [hE]
        have hsw1 : startsWith
            (13 :: 10 :: ((x :: L2) ++ (crlf ++ (joinSep crlf (L3 :: ls2) ++ (crlf2 ++ body)))))
            crlf2 = false :=
          startsWith_crlf2_cons13 (L2 ++ (crlf ++ (joinSep crlf (L3 :: ls2) ++ (crlf2 ++ body)))) hx13
        have hsw2 : startsWith
            (10 :: ((x :: L2) ++ (crlf ++ (joinSep crlf (L3 :: ls2) ++ (crlf2 ++ body)))))
            crlf2 = false :=
          startsWith_crlf2_cons10 _
        have hIH2 : findSubIdx crlf2 (crlf ++ (joinSep crlf (L3 :: ls2) ++ (crlf2 ++ body)))
            = some (2 + (joinSep crlf (L3 :: ls2)).length) := by
          rw [show (crlf ++ (joinSep crlf (L3 :: ls2) ++ (crlf2 ++ body)) : Bytes)
            = crlf ++ joinSep crlf (L3 :: ls2) ++ crlf2 ++ body from by simp]
          exact ih hrest1 hrest2 (by simp)
        rw [findSubIdx_cons_neg hsw1, findSubIdx_cons_neg hsw2,
          findSubIdx_skip_crlf2 (x :: L2) _ hL13, hIH2]
        simp only [Option.map_some']
        congr 1
        simp only [List.length_cons, List.length_append, List.length_nil, crlf]
        omega

theorem splitLines_line_append {L : Bytes} (rest : Bytes)
    (h : ∀ b ∈ L, b ≠ 13 ∧ b ≠ 10) :
    splitLines (L ++ 13 :: 10 :: rest) = (L ++ [13, 10]) :: splitLines rest := by
  induction L with
  | nil => rfl
  | cons c L ih =>
    have hc := h c (List.mem_cons_self c L)
    have hL : ∀ b ∈ L, b ≠ 13 ∧ b ≠ 10 := fun b hb => h b (List.mem_cons_of_mem c hb)
    rw [List.cons_append, splitLines.eq_def]
    simp only [if_neg hc.1, if_neg hc.2]
    rw [ih hL]
    simp

theorem splitLines_noterm {L : Bytes} (hL : L ≠ []) (h : ∀ b ∈ L, b ≠ 13 ∧ b ≠ 10) :
    splitLines L = [L] := by
  induction L with
  | nil => exact absurd rfl hL
  | cons c L ih =>
    have hc := h c (List.mem_cons_self c L)
    have hLb : ∀ b ∈ L, b ≠ 13 ∧ b ≠ 10 := fun b hb => h b (List.mem_cons_of_mem c hb)
    rw [splitLines.eq_def]
    simp only [if_neg hc.1, if_neg hc.2]
    cases hL2 : L with
    | nil => rfl
    | cons d L2 =>
      rw [← hL2, ih (by simp [hL2]) hLb]

theorem groupGo_pending (ls : List Bytes) (h : ∀ l ∈ ls, contLine l = false) :
    ∀ hd vs, groupGo ls (some (hd, vs)) = (hd, vs.reverse) :: groupGo ls none := by
  induction ls with
  | nil => intro hd vs; rfl
  | cons l ls ih =>
    intro hd vs
    have hl : contLine l = false := h l (List.mem_cons_self l ls)
    have hrest : ∀ m ∈ ls, contLine m = false :=
      fun m hm => h m (List.mem_cons_of_mem l hm)
    simp only [groupGo, hl, Bool.false_eq_true, if_false]

theorem groupGo_all (ls : List Bytes) (h : ∀ l ∈ ls, contLine l = false) :
    groupGo ls none = ls.map (fun l => (l, [])) := by
  induction ls with
  | nil => rfl
  | cons l ls ih =>
    have hl : contLine l = false := h l (List.mem_cons_self l ls)
    have hrest : ∀ m ∈ ls, contLine m = false :=
      fun m hm => h m (List.mem_cons_of_mem l hm)
    simp only [groupGo, hl, Bool.false_eq_true, if_false, List.map_cons]
    rw [groupGo_pending ls hrest l [], ih hrest]
    simp

theorem lstripSpTab_value_crlf {v : Bytes} (hv : wfValue v) :
    lstripSpTab (32 :: (v ++ [13, 10])) = v ++ [13, 10] := by
  unfold lstripSpTab
  rw [List.dropWhile_cons_of_pos (by simp)]
  cases hvc : v with
  | nil =>
    rw [List.nil_append, List.dropWhile_cons_of_neg (by simp)]
  | cons c v2 =>
    have hc32 : c ≠ 32 := by
      intro hc
      exact hv.2 (by simp [hvc, hc])
    have hcge : 32 ≤ c := (hv.1 c (by simp [hvc])).1
    have hc9 : c ≠ 9 := by omega
    rw [List.cons_append, List.dropWhile_cons_of_neg]
    simp [hc32, hc9]

theorem lstripSpTab_value_nil {v : Bytes} (hv : wfValue v) :
    lstripSpTab (32 :: v) = v := by
  unfold lstripSpTab
  rw [List.dropWhile_cons_of_pos (by simp)]
  cases hvc : v with
  | nil => rfl
  | cons c v2 =>
    have hc32 : c ≠ 32 := by
      intro hc
      exact hv.2 (by simp [hvc, hc])
    have hcge : 32 ≤ c := (hv.1 c (by simp [hvc])).1
    have hc9 : c ≠ 9 := by omega
    rw [List.dropWhile_cons_of_neg]
    simp [hc32, hc9]

theorem wfValue_no_crlf {v : Bytes} (hv : wfValue v) : ∀ b ∈ v, b ≠ 13 ∧ b ≠ 10 := by
  intro b hb
  have := (hv.1 b hb).1
  omega

theorem wfKey_no_crlf {k : Bytes} (hk : wfKey k) : ∀ b ∈ k, b ≠ 13 ∧ b ≠ 10 := by
  intro b hb
  have := (hk.2 b hb).1
  omega

theorem wfKey_no_colon {k : Bytes} (hk : wfKey k) : (58 : Nat) ∉ k := by
  intro h58
  exact (hk.2 58 h58).2.2 rfl

theorem serializeHeader_range {k v : Bytes} (hk : wfKey k) (hv : wfValue v) :
    ∀ b ∈ serializeHeader (k, v), 32 ≤ b ∧ b ≤ 126 := by
  intro b hb
  simp [serializeHeader] at hb
  rcases hb with hb | hb | hb | hb
  · have := hk.2 b hb
    omega
  · omega
  · omega
  · exact hv.1 b hb

theorem serializeHeader_no_crlf {k v : Bytes} (hk : wfKey k) (hv : wfValue v) :
    ∀ b ∈ serializeHeader (k, v), b ≠ 13 ∧ b ≠ 10 := by
  intro b hb
  have := serializeHeader_range hk hv b hb
  omega

theorem serializeHeader_ne_nil (k v : Bytes) (hk : wfKey k) :
    serializeHeader (k, v) ≠ [] := by
  cases hkc : k with
  | nil => exact absurd hkc hk.1
  | cons c k2 => simp [serializeHeader, hkc]

theorem headerOfGroup_last {k v : Bytes} (hk : wfKey k) (hv : wfValue v) :
    headerOfGroup (serializeHeader (k, v), []) = some (k, v) := by
  have hform : serializeHeader (k, v) = k ++ 58 :: (32 :: v) := by
    simp [serializeHeader]
  have hfind : findSubIdx [58] (serializeHeader (k, v)) = some k.length := by
    rw [hform]
    exact findSubIdx_single 58 k (32 :: v) (wfKey_no_colon hk)
  have htake : (serializeHeader (k, v)).take k.length = k := by
    rw [hform]
    exact List.take_left k _
  have hdrop : (serializeHeader (k, v)).drop (k.length + 1) = 32 :: v := by
    rw [hform]
    exact drop_append_cons k 58 _
  simp only [headerOfGroup, hfind, htake, hdrop, catList, List.append_nil]
  rw [lstripSpTab_value_nil hv, rstripCRLF_id (wfValue_no_crlf hv)]

theorem headerOfGroup_mid {k v : Bytes} (hk : wfKey k) (hv : wfValue v) :
    headerOfGroup (serializeHeader (k, v) ++ crlf, []) = some (k, v) := by
  have hform : serializeHeader (k, v) ++ crlf = k ++ 58 :: (32 :: (v ++ [13, 10])) := by
    simp [serializeHeader, crlf]
  have hfind : findSubIdx [58] (serializeHeader (k, v) ++ crlf) = some k.length := by
    rw [hform]
    exact findSubIdx_single 58 k (32 :: (v ++ [13, 10])) (wfKey_no_colon hk)
  have htake : (serializeHeader (k, v) ++ crlf).take k.length = k := by
    rw [hform]
    exact List.take_left k _
  have hdrop : (serializeHeader (k, v) ++ crlf).drop (k.length + 1)
      = 32 :: (v ++ [13, 10]) := by
    rw [hform]
    exact drop_append_cons k 58 _
  simp only [headerOfGroup, hfind, htake, hdrop, catList, List.append_nil]
  rw [lstripSpTab_value_crlf hv, rstripCRLF_append_crlf (wfValue_no_crlf hv)]

theorem contLine_header {k v : Bytes} (tail : Bytes) (hk : wfKey k) :
    contLine (serializeHeader (k, v) ++ tail) = false := by
  cases hkc : k with
  | nil => exact absurd hkc hk.1
  | cons c k2 =>
    have hc : 33 ≤ c ∧ c ≤ 126 ∧ c ≠ 58 := hk.2 c (by simp [hkc])
    have h32 : (c == 32) = false := by
      simp only [beq_eq_false_iff_ne]
      omega
    have h9 : (c == 9) = false := by
      simp only [beq_eq_false_iff_ne]
      omega
    simp [contLine, serializeHeader, hkc, h32, h9]

theorem contLine_header_plain {k v : Bytes} (hk : wfKey k) :
    contLine (serializeHeader (k, v)) = false := by
  have := contLine_header (v := v) [] hk
  simpa using this

theorem linesWithEnds_eq (hs : List (Bytes × Bytes))
    (h : ∀ kv ∈ hs, wfKey kv.1 ∧ wfValue kv.2) :
    splitLines (serializeHeaders hs) = linesWithEnds hs := by
  induction hs with
  | nil => rfl
  | cons kv hs ih =>
    obtain ⟨hk, hv⟩ := h kv (List.mem_cons_self kv hs)
    have hline := serializeHeader_no_crlf hk hv
    cases hs with
    | nil =>
      show splitLines (serializeHeader kv) = [serializeHeader kv]
      exact splitLines_noterm (serializeHeader_ne_nil kv.1 kv.2 hk) hline
    | cons kv2 hs2 =>
      have hJ : serializeHeaders (kv :: kv2 :: hs2)
          = serializeHeader kv ++ (13 :: 10 :: serializeHeaders (kv2 :: hs2)) := by
        simp only [serializeHeaders, List.map_cons]
        rw [show joinSep crlf
            (serializeHeader kv :: serializeHeader kv2 :: List.map serializeHeader hs2)
          = serializeHeader kv ++ crlf ++
            joinSep crlf (serializeHeader kv2 :: List.map serializeHeader hs2) from rfl]
        simp [crlf, List.append_assoc]
      rw [hJ, splitLines_line_append _ hline,
        ih (fun m hm => h m (List.mem_cons_of_mem _ hm))]
      rfl

theorem linesWithEnds_not_cont (hs : List (Bytes × Bytes))
    (h : ∀ kv ∈ hs, wfKey kv.1 ∧ wfValue kv.2) :
    ∀ l ∈ linesWithEnds hs, contLine l = false := by
  induction hs with
  | nil => intro l hl; simp [linesWithEnds] at hl
  | cons kv hs ih =>
    intro l hl
    obtain ⟨hk, _⟩ := h kv (List.mem_cons_self kv hs)
    cases hs with
    | nil =>
      simp only [linesWithEnds, List.mem_singleton] at hl
      subst hl
      exact contLine_header_plain hk
    | cons kv2 hs2 =>
      rw [show linesWithEnds (kv :: kv2 :: hs2)
        = (serializeHeader kv ++ crlf) :: linesWithEnds (kv2 :: hs2) from rfl] at hl
      rcases List.mem_cons.mp hl with rfl | hl
      · exact contLine_header crlf hk
      · exact ih (fun m hm => h m (List.mem_cons_of_mem _ hm)) l hl

theorem filterMap_linesWithEnds (hs : List (Bytes × Bytes))
    (h : ∀ kv ∈ hs, wfKey kv.1 ∧ wfValue kv.2) :
    ((linesWithEnds hs).map fun l => (l, [])).filterMap headerOfGroup = hs := by
  induction hs with
  | nil => rfl
  | cons kv hs ih =>
    obtain ⟨hk, hv⟩ := h kv (List.mem_cons_self kv hs)
    cases hs with
    | nil =>
      show List.filterMap headerOfGroup [(serializeHeader kv, [])] = [kv]
      rw [List.filterMap_cons]
      rw [show headerOfGroup (serializeHeader kv, []) = some (kv.1, kv.2) from
        headerOfGroup_last hk hv]
      rfl
    | cons kv2 hs2 =>
      rw [show linesWithEnds (kv :: kv2 :: hs2)
        = (serializeHeader kv ++ crlf) :: linesWithEnds (kv2 :: hs2) from rfl]
      rw [List.map_cons, List.filterMap_cons]
      rw [show headerOfGroup (serializeHeader kv ++ crlf, []) = some (kv.1, kv.2) from
        headerOfGroup_mid hk hv]
      rw [ih (fun m hm => h m (List.mem_cons_of_mem _ hm))]

theorem parseHeaderBytes_serialize (hs : List (Bytes × Bytes))
    (h : ∀ kv ∈ hs, wfKey kv.1 ∧ wfValue kv.2) :
    parseHeaderBytes (serializeHeaders hs) = hs := by
  unfold parseHeaderBytes
  rw [linesWithEnds_eq hs h, groupGo_all _ (linesWithEnds_not_cont hs h),
    filterMap_linesWithEnds hs h]

theorem pyLstrip_crlf_header (hs : List (Bytes × Bytes))
    (h : ∀ kv ∈ hs, wfKey kv.1 ∧ wfValue kv.2) (hne : hs ≠ []) :
    pyLstrip (crlf ++ serializeHeaders hs) = serializeHeaders hs := by
  cases hs with
  | nil => exact absurd rfl hne
  | cons kv hs2 =>
    obtain ⟨hk, hv⟩ := h kv (List.mem_cons_self kv hs2)
    obtain ⟨c, k2, hkc⟩ : ∃ c k2, kv.1 = c :: k2 := by
      cases hl : kv.1 with
      | nil => exact absurd hl hk.1
      | cons a b => exact ⟨a, b, rfl⟩
    have hc : 33 ≤ c ∧ c ≤ 126 ∧ c ≠ 58 := hk.2 c (by simp [hkc])
    have hhead : (serializeHeaders (kv :: hs2)).head? = some c := by
      cases hs2 with
      | nil =>
        show (serializeHeader kv).head? = some c
        simp [serializeHeader, hkc]
      | cons kv2 hs3 =>
        have hJ : serializeHeaders (kv :: kv2 :: hs3)
            = serializeHeader kv ++
              (crlf ++ serializeHeaders (kv2 :: hs3)) := by
          simp only [serializeHeaders, List.map_cons]
          rw [show joinSep crlf
              (serializeHeader kv :: serializeHeader kv2 :: List.map serializeHeader hs3)
            = serializeHeader kv ++ crlf ++
              joinSep crlf (serializeHeader kv2 :: List.map serializeHeader hs3) from rfl]
          simp [List.append_assoc]
        rw [hJ, List.head?_append_of_ne_nil _ (serializeHeader_ne_nil kv.1 kv.2 hk)]
        simp [serializeHeader, hkc]
    cases hH : serializeHeaders (kv :: hs2) with
    | nil => simp [hH] at hhead
    | cons c0 t =>
      rw [hH] at hhead
      simp only [List.head?_cons, Option.some_inj] at hhead
      subst hhead
      show pyLstrip (13 :: 10 :: c0 :: t) = c0 :: t
      unfold pyLstrip
      rw [List.dropWhile_cons_of_pos (by simp), List.dropWhile_cons_of_pos (by simp),
        List.dropWhile_cons_of_neg]
      simp only [Bool.or_eq_true, beq_iff_eq, not_or]
      omega

theorem ciInsert_foldl_aux :
    ∀ (hs acc : List (Bytes × Bytes)),
      ((acc ++ hs).map fun kv => lowerBytes kv.1).Nodup →
      List.foldl ciInsert acc hs = acc ++ hs := by
  intro hs
  induction hs with
  | nil => intro acc _; simp
  | cons kv hs ih =>
    intro acc hacc
    rw [List.foldl_cons]
    have hany : (acc.any fun e => lowerBytes e.1 == lowerBytes kv.1) = false := by
      by_contra hco
      rw [Bool.not_eq_false, List.any_eq_true] at hco
      obtain ⟨e, he, heq⟩ := hco
      rw [beq_iff_eq] at heq
      have h1 : lowerBytes kv.1 ∈ acc.map (fun kv => lowerBytes kv.1) :=
        List.mem_map.mpr ⟨e, he, heq⟩
      have h2 : lowerBytes kv.1 ∈ (kv :: hs).map (fun kv => lowerBytes kv.1) := by simp
      rw [List.map_append, List.nodup_append] at hacc
      exact hacc.2.2 h1 h2
    rw [show ciInsert acc kv = acc ++ [kv] from by
      simp only [ciInsert, hany, Bool.false_eq_true, if_false]]
    rw [ih (acc ++ [kv]) (by simpa [List.append_assoc] using hacc)]
    simp

theorem ciFromList_nodup (hs : List (Bytes × Bytes))
    (h : (hs.map fun kv => lowerBytes kv.1).Nodup) : ciFromList hs = hs := by
  have := ciInsert_foldl_aux hs [] (by simpa using h)
  simpa [ciFromList] using this

theorem mem_joinSep {b : Nat} {sep : Bytes} :
    ∀ {ls : List Bytes}, b ∈ joinSep sep ls → (∃ L ∈ ls, b ∈ L) ∨ b ∈ sep := by
  intro ls
  induction ls with
  | nil => intro h; simp [joinSep] at h
  | cons L ls ih =>
    intro h
    cases ls with
    | nil =>
      left
      exact ⟨L, by simp, by simpa [joinSep] using h⟩
    | cons L2 ls2 =>
      rw [show joinSep sep (L :: L2 :: ls2) = L ++ sep ++ joinSep sep (L2 :: ls2) from rfl] at h
      simp only [List.append_assoc, List.mem_append] at h
      rcases h with h | h | h
      · left; exact ⟨L, by simp, h⟩
      · right; exact h
      · rcases ih h with ⟨M, hM, hbM⟩ | h
        · left; exact ⟨M, by simp [hM], hbM⟩
        · right; exact h

theorem partRecord_fragment (p : RawPart) (hw : wfHeaders p.headers) :
    partRecord (fragmentOf p) = .ok (some ⟨p.headers, p.body⟩) := by
  obtain ⟨hne, hkv, hnd⟩ := hw
  have hlines1 : ∀ L ∈ List.map serializeHeader p.headers, L ≠ [] := by
    intro L hL
    obtain ⟨kv, hmem, rfl⟩ := List.mem_map.mp hL
    exact serializeHeader_ne_nil kv.1 kv.2 (hkv kv hmem).1
  have hlines2 : ∀ L ∈ List.map serializeHeader p.headers, ∀ b ∈ L, b ≠ 13 ∧ b ≠ 10 := by
    intro L hL
    obtain ⟨kv, hmem, rfl⟩ := List.mem_map.mp hL
    exact serializeHeader_no_crlf (hkv kv hmem).1 (hkv kv hmem).2
  have hlne : List.map serializeHeader p.headers ≠ [] := by
    cases hh : p.headers with
    | nil => exact absurd hh hne
    | cons a l => simp [hh]
  have hform : fragmentOf p
      = crlf ++ joinSep crlf (List.map serializeHeader p.headers) ++ crlf2 ++ p.body := by
    simp [fragmentOf, serializeHeaders, crlf2, crlf, List.append_assoc]
  have hfind : findSubIdx crlf2
      (crlf ++ joinSep crlf (List.map serializeHeader p.headers) ++ crlf2 ++ p.body)
      = some (2 + (joinSep crlf (List.map serializeHeader p.headers)).length) :=
    findSubIdx_header (List.map serializeHeader p.headers) p.body hlines1 hlines2 hlne
  have hsplit : crlf ++ joinSep crlf (List.map serializeHeader p.headers) ++ crlf2 ++ p.body
      = (crlf ++ joinSep crlf (List.map serializeHeader p.headers)) ++ (crlf2 ++ p.body) := by
    simp [List.append_assoc]
  have hcont : containsSub crlf2
      (crlf ++ joinSep crlf (List.map serializeHeader p.headers) ++ crlf2 ++ p.body) = true := by
    rw [hsplit]
    exact containsSub_append_left _
      (containsSub_of_startsWith (startsWith_append_self crlf2 p.body))
  have htake : (crlf ++ joinSep crlf (List.map serializeHeader p.headers) ++ crlf2 ++ p.body).take
      (2 + (joinSep crlf (List.map serializeHeader p.headers)).length)
      = crlf ++ joinSep crlf (List.map serializeHeader p.headers) := by
    rw [hsplit, show 2 + (joinSep crlf (List.map serializeHeader p.headers)).length
      = (crlf ++ joinSep crlf (List.map serializeHeader p.headers)).length from by
        simp [crlf]
        omega]
    exact List.take_left _ _
  have hdrop : (crlf ++ joinSep crlf (List.map serializeHeader p.headers) ++ crlf2 ++ p.body).drop
      (2 + (joinSep crlf (List.map serializeHeader p.headers)).length + crlf2.length)
      = p.body := by
    rw [show crlf ++ joinSep crlf (List.map serializeHeader p.headers) ++ crlf2 ++ p.body
      = ((crlf ++ joinSep crlf (List.map serializeHeader p.headers)) ++ crlf2) ++ p.body from by
        simp [List.append_assoc]]
    rw [show 2 + (joinSep crlf (List.map serializeHeader p.headers)).length + crlf2.length
      = ((crlf ++ joinSep crlf (List.map serializeHeader p.headers)) ++ crlf2).length from by
        simp [crlf]
        omega]
    exact List.drop_left _ _
  have hstrip : pyLstrip (crlf ++ joinSep crlf (List.map serializeHeader p.headers))
      = joinSep crlf (List.map serializeHeader p.headers) :=
    pyLstrip_crlf_header p.headers hkv hne
  have h127 : ∀ b ∈ joinSep crlf (List.map serializeHeader p.headers), b ≤ 127 := by
    intro b hb
    rcases mem_joinSep hb with ⟨L, hL, hbL⟩ | hcr
    · obtain ⟨kv, hmem, rfl⟩ := List.mem_map.mp hL
      have := serializeHeader_range (hkv kv hmem).1 (hkv kv hmem).2 b hbL
      omega
    · simp [crlf] at hcr
      rcases hcr with rfl | rfl <;> omega
  have hvalid : validUtf8 (joinSep crlf (List.map serializeHeader p.headers)) = true :=
    validUtf8_of_ascii h127
  have hparse : parseHeaderBytes (joinSep crlf (List.map serializeHeader p.headers))
      = p.headers :=
    parseHeaderBytes_serialize p.headers hkv
  rw [hform]
  unfold partRecord
  rw [if_pos hcont]
  simp only [split_on_find, hfind]
  rw [htake, hdrop, hstrip, hvalid]
  rw [if_pos rfl, hparse, ciFromList_nodup p.headers hnd]

theorem get_boundary_cons (s : Bytes) :
    get_boundary (13 :: 10 :: s) =
      (match findSubIdx [10] s with
      | some j =>
        if 3 ≤ j ∧ s.take 2 = [45, 45] ∧ s.getD (j - 1) 0 = 13 then
          some (s.take (j - 1))
        else none
      | none => none) := rfl

theorem startsWith_dashdash {bound : Bytes} (h : startsWith bound [45, 45] = true) :
    ∃ t, bound = 45 :: 45 :: t := by
  cases bound with
  | nil => simp [startsWith] at h
  | cons a r =>
    cases r with
    | nil => simp [startsWith] at h
    | cons b t =>
      simp only [startsWith, Bool.and_eq_true, beq_iff_eq] at h
      exact ⟨t, by rw [h.1, h.2.1]⟩

theorem get_boundary_form (t rest2 : Bytes) (h10 : (10 : Nat) ∉ 45 :: 45 :: t) :
    get_boundary (13 :: 10 :: ((45 :: 45 :: t) ++ 13 :: 10 :: rest2)) =
      some (45 :: 45 :: t) := by
  have hL10 : (10 : Nat) ∉ (45 :: 45 :: t) ++ [13] := by
    intro hmem
    rcases List.mem_append.mp hmem with hm | hm
    · exact h10 hm
    · simp at hm
  have hfind : findSubIdx [10] ((45 :: 45 :: t) ++ 13 :: 10 :: rest2)
      = some ((45 :: 45 :: t) ++ [13]).length := by
    rw [show (45 :: 45 :: t) ++ 13 :: 10 :: rest2
      = ((45 :: 45 :: t) ++ [13]) ++ 10 :: rest2 from by simp]
    exact findSubIdx_single 10 _ rest2 hL10
  have hlen1 : ((45 :: 45 :: t) ++ [13]).length - 1 = (45 :: 45 :: t).length := by simp
  have hgetD : ((45 :: 45 :: t) ++ 13 :: 10 :: rest2).getD
      (((45 :: 45 :: t) ++ [13]).length - 1) 0 = 13 := by
    rw [hlen1]
    exact getD_append_length (45 :: 45 :: t) 13 (10 :: rest2) 0
  have hcond : 3 ≤ ((45 :: 45 :: t) ++ [13]).length ∧
      ((45 :: 45 :: t) ++ 13 :: 10 :: rest2).take 2 = [45, 45] ∧
      ((45 :: 45 :: t) ++ 13 :: 10 :: rest2).getD
        (((45 :: 45 :: t) ++ [13]).length - 1) 0 = 13 := by
    refine ⟨by simp, rfl, hgetD⟩
  have htake : ((45 :: 45 :: t) ++ 13 :: 10 :: rest2).take
      (((45 :: 45 :: t) ++ [13]).length - 1) = 45 :: 45 :: t := by
    rw [hlen1]
    exact List.take_left _ _
  rw [get_boundary_cons, hfind]
  show (if 3 ≤ ((45 :: 45 :: t) ++ [13]).length ∧
      ((45 :: 45 :: t) ++ 13 :: 10 :: rest2).take 2 = [45, 45] ∧
      ((45 :: 45 :: t) ++ 13 :: 10 :: rest2).getD
        (((45 :: 45 :: t) ++ [13]).length - 1) 0 = 13 then
      some (((45 :: 45 :: t) ++ 13 :: 10 :: rest2).take
        (((45 :: 45 :: t) ++ [13]).length - 1))
    else none) = some (45 :: 45 :: t)
  rw [if_pos hcond, htake]

theorem get_boundary_closing (t : Bytes) (h10 : (10 : Nat) ∉ 45 :: 45 :: t) :
    get_boundary (13 :: 10 :: ((45 :: 45 :: t) ++ [45, 45, 13, 10])) =
      some ((45 :: 45 :: t) ++ [45, 45]) := by
  have hL10 : (10 : Nat) ∉ (45 :: 45 :: t) ++ [45, 45, 13] := by
    intro hmem
    rcases List.mem_append.mp hmem with hm | hm
    · exact h10 hm
    · simp at hm
  have hfind : findSubIdx [10] ((45 :: 45 :: t) ++ [45, 45, 13, 10])
      = some ((45 :: 45 :: t) ++ [45, 45, 13]).length := by
    rw [show (45 :: 45 :: t) ++ [45, 45, 13, 10]
      = ((45 :: 45 :: t) ++ [45, 45, 13]) ++ 10 :: [] from by simp]
    exact findSubIdx_single 10 _ [] hL10
  have hlen : ((45 :: 45 :: t) ++ [45, 45, 13]).length - 1
      = ((45 :: 45 :: t) ++ [45, 45]).length := by simp
  have hgetD : ((45 :: 45 :: t) ++ [45, 45, 13, 10]).getD
      (((45 :: 45 :: t) ++ [45, 45, 13]).length - 1) 0 = 13 := by
    rw [hlen, show (45 :: 45 :: t) ++ [45, 45, 13, 10]
      = ((45 :: 45 :: t) ++ [45, 45]) ++ 13 :: [10] from by simp]
    exact getD_append_length _ 13 [10] 0
  have hcond : 3 ≤ ((45 :: 45 :: t) ++ [45, 45, 13]).length ∧
      ((45 :: 45 :: t) ++ [45, 45, 13, 10]).take 2 = [45, 45] ∧
      ((45 :: 45 :: t) ++ [45, 45, 13, 10]).getD
        (((45 :: 45 :: t) ++ [45, 45, 13]).length - 1) 0 = 13 :=
    ⟨by simp, rfl, hgetD⟩
  have htake : ((45 :: 45 :: t) ++ [45, 45, 13, 10]).take
      (((45 :: 45 :: t) ++ [45, 45, 13]).length - 1) = (45 :: 45 :: t) ++ [45, 45] := by
    rw [hlen, show (45 :: 45 :: t) ++ [45, 45, 13, 10]
      = ((45 :: 45 :: t) ++ [45, 45]) ++ [13, 10] from by simp]
    exact List.take_left _ _
  rw [get_boundary_cons, hfind]
  show (if 3 ≤ ((45 :: 45 :: t) ++ [45, 45, 13]).length ∧
      ((45 :: 45 :: t) ++ [45, 45, 13, 10]).take 2 = [45, 45] ∧
      ((45 :: 45 :: t) ++ [45, 45, 13, 10]).getD
        (((45 :: 45 :: t) ++ [45, 45, 13]).length - 1) 0 = 13 then
      some (((45 :: 45 :: t) ++ [45, 45, 13, 10]).take
        (((45 :: 45 :: t) ++ [45, 45, 13]).length - 1))
    else none) = some ((45 :: 45 :: t) ++ [45, 45])
  rw [if_pos hcond, htake]

theorem buildPart_eq (bound : Bytes) (p : RawPart) :
    buildPart bound p = sepFor bound ++ fragmentOf p := by
  simp [buildPart, sepFor, fragmentOf, List.append_assoc]

theorem buildMultipart_eq (bound : Bytes) (ps : List RawPart) :
    buildMultipart bound ps
      = sepFor bound ++
        (catList ((ps.map fragmentOf).map (· ++ sepFor bound)) ++ ([45, 45] ++ crlf)) := by
  induction ps with
  | nil => simp [buildMultipart, catList, closingDelim, sepFor, List.append_assoc]
  | cons p ps ih =>
    have hstep : buildMultipart bound (p :: ps)
        = buildPart bound p ++ buildMultipart bound ps := by
      simp [buildMultipart, catList, List.append_assoc]
    rw [hstep, ih, buildPart_eq]
    simp [catList, List.append_assoc]

theorem closing_no_sep (t : Bytes) :
    containsSub (sepFor (45 :: 45 :: t)) ([45, 45] ++ crlf) = false := by
  cases t with
  | nil => decide
  | cons a t2 =>
    apply containsSub_of_short
    simp only [sepFor, crlf, List.length_append, List.length_cons, List.length_nil]
    omega

theorem processFragments_map (ps : List RawPart)
    (h : ∀ p ∈ ps, partRecord (fragmentOf p) = .ok (some ⟨p.headers, p.body⟩)) :
    processFragments (ps.map fragmentOf)
      = .ok (ps.map fun p => (⟨p.headers, p.body⟩ : MimePart)) := by
  induction ps with
  | nil => rfl
  | cons p ps ih =>
    rw [List.map_cons, List.map_cons]
    show processFragments (fragmentOf p :: ps.map fragmentOf) = _
    rw [show processFragments (fragmentOf p :: ps.map fragmentOf)
      = (match partRecord (fragmentOf p) with
        | .error e => .error e
        | .ok none => processFragments (ps.map fragmentOf)
        | .ok (some r) =>
          match processFragments (ps.map fragmentOf) with
          | .error e => .error e
          | .ok rs => .ok (r :: rs)) from rfl]
    rw [h p (List.mem_cons_self p ps), ih (fun q hq => h q (List.mem_cons_of_mem p hq))]

/-- C1 (**Multipart round-trip**): a synthetic multipart buffer built
from a boundary token (starting with `--`, containing no newline) and N
parts with well-formed header pairs and arbitrary bodies — each part
preceded by `\r\n` + boundary + `\r\n`, headers and body separated by
`\r\n\r\n`, and the closing delimiter at the end — is parsed by
`parse_response` into exactly N records whose headers and content bytes
equal the inputs, in the original order.  `wfPart` carries the standard
MIME side conditions without which a round trip cannot hold: RFC-822
representable header names and values, case-insensitively distinct names
(so the `CaseInsensitiveDict` retains every pair), at least one header
per part, and no occurrence of `\r\n` + boundary inside a part's
bytes. -/
theorem multipart_round_trip (bound : Bytes) (ps : List RawPart)
    (hb : wfBoundary bound) (hp : ∀ p ∈ ps, wfPart bound p) :
    parse_response (buildMultipart bound ps)
      = Except.ok (ps.map fun p => (⟨p.headers, p.body⟩ : MimePart)) := by
  obtain ⟨t, hbt⟩ := startsWith_dashdash hb.1
  subst hbt
  have h10 : (10 : Nat) ∉ 45 :: 45 :: t := hb.2
  cases ps with
  | nil =>
    have hbuf : buildMultipart (45 :: 45 :: t) []
        = 13 :: 10 :: ((45 :: 45 :: t) ++ [45, 45, 13, 10]) := by
      simp [buildMultipart, catList, closingDelim, crlf]
    have hgb : get_boundary (buildMultipart (45 :: 45 :: t) [])
        = some ((45 :: 45 :: t) ++ [45, 45]) := by
      rw [hbuf]
      exact get_boundary_closing t h10
    have hbuf2 : buildMultipart (45 :: 45 :: t) []
        = [] ++ (crlf ++ ((45 :: 45 :: t) ++ [45, 45])) ++ crlf := by
      simp [buildMultipart, catList, closingDelim, crlf, List.append_assoc]
    have hmid : middleFragments (buildMultipart (45 :: 45 :: t) [])
        ((45 :: 45 :: t) ++ [45, 45]) = [] := by
      unfold middleFragments
      rw [hbuf2, pySplit_sep_append (crlf ++ ((45 :: 45 :: t) ++ [45, 45])) [] crlf
        (by
          rw [List.nil_append]
          exact containsSub_dropLast_self (by simp [crlf]))]
      rw [pySplit_not_contains (containsSub_of_short (by
        simp only [crlf, List.length_append, List.length_cons, List.length_nil]
        omega))]
      rfl
    simp only [parse_response, hgb, hmid]
    rfl
  | cons p0 ps2 =>
    obtain ⟨X, hbuf⟩ : ∃ X, buildMultipart (45 :: 45 :: t) (p0 :: ps2)
        = 13 :: 10 :: ((45 :: 45 :: t) ++ 13 :: 10 :: X) := by
      refine ⟨serializeHeaders p0.headers ++
        (crlf ++ (crlf ++ (p0.body ++
          (catList (ps2.map (buildPart (45 :: 45 :: t))) ++
            closingDelim (45 :: 45 :: t))))), ?_⟩
      simp [buildMultipart, catList, buildPart, crlf, List.append_assoc]
    have hgb : get_boundary (buildMultipart (45 :: 45 :: t) (p0 :: ps2))
        = some (45 :: 45 :: t) := by
      rw [hbuf]
      exact get_boundary_form t X h10
    have hgs : ∀ g ∈ (p0 :: ps2).map fragmentOf,
        containsSub (sepFor (45 :: 45 :: t)) ((g ++ sepFor (45 :: 45 :: t)).dropLast)
          = false := by
      intro g hg
      obtain ⟨q, hq, rfl⟩ := List.mem_map.mp hg
      exact (hp q hq).2
    have hchain : pySplit (sepFor (45 :: 45 :: t)) (buildMultipart (45 :: 45 :: t) (p0 :: ps2))
        = [] :: ((p0 :: ps2).map fragmentOf ++ [[45, 45] ++ crlf]) := by
      rw [buildMultipart_eq]
      have h0 : containsSub (sepFor (45 :: 45 :: t))
          ((([] : Bytes) ++ sepFor (45 :: 45 :: t)).dropLast) = false := by
        rw [List.nil_append]
        exact containsSub_dropLast_self (by simp [sepFor, crlf])
      have hsa := pySplit_sep_append (sepFor (45 :: 45 :: t)) []
        (catList (((p0 :: ps2).map fragmentOf).map (· ++ sepFor (45 :: 45 :: t)))
          ++ ([45, 45] ++ crlf)) h0
      rw [List.nil_append] at hsa
      rw [hsa]
      rw [pySplit_chain (sepFor (45 :: 45 :: t)) ([45, 45] ++ crlf)
        ((p0 :: ps2).map fragmentOf) hgs (closing_no_sep t)]
    have hmid : middleFragments (buildMultipart (45 :: 45 :: t) (p0 :: ps2)) (45 :: 45 :: t)
        = (p0 :: ps2).map fragmentOf := by
      unfold middleFragments
      rw [show (crlf ++ (45 :: 45 :: t) : Bytes) = sepFor (45 :: 45 :: t) from rfl, hchain]
      unfold pySlice1Neg1
      rw [show (([] : Bytes) :: ((p0 :: ps2).map fragmentOf ++ [[45, 45] ++ crlf])).drop 1
        = (p0 :: ps2).map fragmentOf ++ [[45, 45] ++ crlf] from rfl]
      exact dropLast_snoc _ _
    have hrec : processFragments ((p0 :: ps2).map fragmentOf)
        = .ok ((p0 :: ps2).map fun p => (⟨p.headers, p.body⟩ : MimePart)) :=
      processFragments_map _ (fun q hq => partRecord_fragment q (hp q hq).1)
    simp only [parse_response, hgb, hmid, hrec]

theorem multipart_round_trip_witness :
    parse_response (buildMultipart exBound [exRaw1, exRaw2])
      = Except.ok [⟨exRaw1.headers, exRaw1.body⟩, ⟨exRaw2.headers, exRaw2.body⟩] :=
  multipart_round_trip exBound [exRaw1, exRaw2] (by decide) (by decide)
